import Mathlib

/-!
Verification of the page-replacement simulation engine (`src/algorithms.js`).

The engine simulates four classic page-replacement policies (FIFO, LRU,
OPT/Belady, CLOCK/second-chance) over a fixed number of frames and a finite
reference sequence, producing a per-reference step trace and a hit/fault
summary.

Shallow embedding conventions:
* a page is a `ℕ`; a frame holds `Option ℕ` (`none` = the JS `null`);
* JS numbers that can be `-Infinity` / `Infinity` are embedded in
  `WithBot`/`WithTop` orders (`⊥` = `-Infinity`, `⊤` = `Infinity`);
* the JS `Map` used by LRU is an association list with JS `Map.set`
  update-in-place-or-append semantics;
* `for` loops over frame indices become structural recursion over the
  index list `List.range framesCount`;
* the CLOCK `while` loop becomes recursion whose termination is justified
  by the safety guard of the source (`scans > framesCount * 5` throws);
* exceptions become `Except` values.
-/

/-- One step record (`makeStep` fields in `algorithms.js`). -/
structure ClockMeta where
  refBits : List ℕ
  hand : ℕ
deriving DecidableEq

structure Step where
  index : ℕ
  page : ℕ
  frames : List (Option ℕ)
  hit : Bool
  fault : Bool
  replaced : Option ℕ
  replacedIndex : Option ℕ
  note : String
  meta : Option ClockMeta
deriving DecidableEq

structure Summary where
  hits : ℕ
  faults : ℕ
deriving DecidableEq

structure SimResult where
  steps : List Step
  summary : Summary
deriving DecidableEq

/-- `makeStep(i, page, frames)` from the source. -/
def makeStep (i : ℕ) (page : ℕ) (frames : List (Option ℕ)) : Step :=
  { index := i
    page := page
    frames := frames
    hit := false
    fault := false
    replaced := none
    replacedIndex := none
    note := ""
    meta := none }

/-- Printing helper for a frame content (JS prints `null` for an empty frame). -/
def pageStr : Option ℕ → String
  | some p => toString p
  | none => "null"

/-- Printing helper for the LRU running minimum (a JS number or `±Infinity`). -/
def lruMinStr (x : WithTop (WithBot ℕ)) : String :=
  if x = ⊤ then "Infinity"
  else
    let y : WithBot ℕ := x.untop' ⊥
    if y = ⊥ then "-Infinity" else toString (y.unbot' 0)

/-- Printing helper for the OPT running maximum (a JS number or `±Infinity`). -/
def optFarStr (x : WithBot (WithTop ℕ)) : String :=
  if x = ⊥ then "-1"
  else
    let y : WithTop ℕ := x.unbot' ⊤
    if y = ⊤ then "Infinity" else toString (y.untop' 0)

-- ---------- FIFO ----------

/-- Body of the FIFO per-reference loop in `simulateFIFO`. -/
def fifoStep (framesCount i p : ℕ) (frames : List (Option ℕ)) (pointer : ℕ) :
    Step × List (Option ℕ) × ℕ :=
  let step := makeStep i p frames
  match frames.findIdx? (· = some p) with
  | some _ =>
    ({ step with
        hit := true
        note := s!"HIT: Page {p} already present."
        frames := frames }, frames, pointer)
  | none =>
    match frames.findIdx? (· = none) with
    | some emptyIndex =>
      let frames' := frames.set emptyIndex (some p)
      ({ step with
          fault := true
          note := s!"FAULT: Empty frame used → inserted {p} into frame {emptyIndex}."
          frames := frames' }, frames', pointer)
    | none =>
      let victimIndex := pointer
      let victimPage := frames.getD victimIndex none
      let frames' := frames.set victimIndex (some p)
      let vp := pageStr victimPage
      ({ step with
          fault := true
          replaced := victimPage
          replacedIndex := some victimIndex
          note := s!"FAULT: FIFO replaces oldest page {vp} at frame {victimIndex}."
          frames := frames' }, frames', (pointer + 1) % framesCount)

/-- The main loop of `simulateFIFO`, processing the remaining references. -/
def fifoGo (framesCount : ℕ) (frames : List (Option ℕ)) (pointer hits faults i : ℕ) :
    List ℕ → List Step × Summary
  | [] => ([], { hits := hits, faults := faults })
  | p :: rest =>
    let r := fifoStep framesCount i p frames pointer
    let step := r.1
    let rec' := fifoGo framesCount r.2.1 r.2.2
      (if step.hit then hits + 1 else hits)
      (if step.fault then faults + 1 else faults) (i + 1) rest
    (step :: rec'.1, rec'.2)

/-- `simulateFIFO(framesCount, refs)` from the source. -/
def simulateFIFO (framesCount : ℕ) (refs : List ℕ) : SimResult :=
  let r := fifoGo framesCount (List.replicate framesCount none) 0 0 0 0 refs
  { steps := r.1, summary := r.2 }

-- ---------- LRU ----------

/-- JS `Map.set`: update the key in place if present, else append. -/
def mapSet (m : List (ℕ × ℕ)) (k v : ℕ) : List (ℕ × ℕ) :=
  match m with
  | [] => [(k, v)]
  | (k', v') :: rest => if k' = k then (k, v) :: rest else (k', v') :: mapSet rest k v

/-- JS `Map.delete`. -/
def mapDelete (m : List (ℕ × ℕ)) (k : ℕ) : List (ℕ × ℕ) :=
  match m with
  | [] => []
  | (k', v') :: rest => if k' = k then rest else (k', v') :: mapDelete rest k

/-- The LRU victim scan (`for fi` loop in `simulateLRU`), carrying
`(victimIndex, victimPage, minLastUsed)`.  The source uses `-Infinity` as the
defensive fallback for a missing `lastUsed` entry; the fallback is a parameter
so that its irrelevance can be stated. -/
def lruScan (frames : List (Option ℕ)) (lastUsed : List (ℕ × ℕ)) (fallback : WithBot ℕ) :
    List ℕ → ℤ × Option ℕ × WithTop (WithBot ℕ) → ℤ × Option ℕ × WithTop (WithBot ℕ)
  | [], acc => acc
  | fi :: fis, (victimIndex, victimPage, minLastUsed) =>
    let page := frames.getD fi none
    let t : WithBot ℕ :=
      match page with
      | some pg =>
        match lastUsed.lookup pg with
        | some v => (v : WithBot ℕ)
        | none => fallback
      | none => fallback
    if (t : WithTop (WithBot ℕ)) < minLastUsed then
      lruScan frames lastUsed fallback fis ((fi : ℤ), page, (t : WithTop (WithBot ℕ)))
    else
      lruScan frames lastUsed fallback fis (victimIndex, victimPage, minLastUsed)

/-- Body of the LRU per-reference loop in `simulateLRU` (fallback as parameter,
the source fixes it to `-Infinity`). -/
def lruStep (fallback : WithBot ℕ) (framesCount i p : ℕ) (frames : List (Option ℕ))
    (lastUsed : List (ℕ × ℕ)) : Step × List (Option ℕ) × List (ℕ × ℕ) :=
  let step := makeStep i p frames
  match frames.findIdx? (· = some p) with
  | some _ =>
    ({ step with
        hit := true
        note := s!"HIT: Page {p} found → update last-used to step {i}."
        frames := frames }, frames, mapSet lastUsed p i)
  | none =>
    match frames.findIdx? (· = none) with
    | some emptyIndex =>
      let frames' := frames.set emptyIndex (some p)
      ({ step with
          fault := true
          note := s!"FAULT: Empty frame used → inserted {p} into frame {emptyIndex}."
          frames := frames' }, frames', mapSet lastUsed p i)
    | none =>
      let scan := lruScan frames lastUsed fallback (List.range framesCount)
        ((-1 : ℤ), none, ⊤)
      let victimIndex := scan.1
      let victimPage := scan.2.1
      let minLastUsed := scan.2.2
      let frames' := frames.set victimIndex.toNat (some p)
      let lastUsed' := mapSet
        (match victimPage with
         | some vp => mapDelete lastUsed vp
         | none => lastUsed) p i
      let vp := pageStr victimPage
      let ml := lruMinStr minLastUsed
      ({ step with
          fault := true
          replaced := victimPage
          replacedIndex := some victimIndex.toNat
          note := s!"FAULT: LRU replaces {vp} in frame {victimIndex.toNat} (least recently used at step {ml})."
          frames := frames' }, frames', lastUsed')

/-- The main loop of `simulateLRU` (fallback as parameter). -/
def lruGo (fallback : WithBot ℕ) (framesCount : ℕ) (frames : List (Option ℕ))
    (lastUsed : List (ℕ × ℕ)) (hits faults i : ℕ) : List ℕ → List Step × Summary
  | [] => ([], { hits := hits, faults := faults })
  | p :: rest =>
    let r := lruStep fallback framesCount i p frames lastUsed
    let step := r.1
    let rec' := lruGo fallback framesCount r.2.1 r.2.2
      (if step.hit then hits + 1 else hits)
      (if step.fault then faults + 1 else faults) (i + 1) rest
    (step :: rec'.1, rec'.2)

/-- `simulateLRU` with the defensive fallback as a parameter. -/
def simulateLRUf (fallback : WithBot ℕ) (framesCount : ℕ) (refs : List ℕ) : SimResult :=
  let r := lruGo fallback framesCount (List.replicate framesCount none) [] 0 0 0 refs
  { steps := r.1, summary := r.2 }

/-- `simulateLRU(framesCount, refs)` from the source (fallback `-Infinity`). -/
def simulateLRU (framesCount : ℕ) (refs : List ℕ) : SimResult :=
  simulateLRUf ⊥ framesCount refs

-- ---------- OPT ----------

/-- Relative index of the first occurrence of `p` in a list
(`Infinity` = `⊤` when absent); the inner `for j` loop of `simulateOPT`
computes `i + 1 +` this value over the remaining references. -/
def nextUse (p : ℕ) : List ℕ → WithTop ℕ
  | [] => ⊤
  | q :: r => if q = p then (0 : WithTop ℕ) else nextUse p r + 1

/-- The OPT victim scan (`for fi` loop in `simulateOPT`), carrying
`(victimIndex, victimPage, farthestNextUse)`; `rest` is the reference
sequence after position `i`. -/
def optScan (rest : List ℕ) (i : ℕ) (frames : List (Option ℕ)) :
    List ℕ → ℕ × Option ℕ × WithBot (WithTop ℕ) → ℕ × Option ℕ × WithBot (WithTop ℕ)
  | [], acc => acc
  | fi :: fis, (victimIndex, victimPage, farthest) =>
    let page := frames.getD fi none
    let nu : WithTop ℕ :=
      match page with
      | some pg => nextUse pg rest + ((i + 1 : ℕ) : WithTop ℕ)
      | none => ⊤
    if farthest < ((nu : WithBot (WithTop ℕ))) then
      optScan rest i frames fis (fi, page, (nu : WithBot (WithTop ℕ)))
    else
      optScan rest i frames fis (victimIndex, victimPage, farthest)

/-- Body of the OPT per-reference loop in `simulateOPT`; `rest` is the
reference sequence after position `i`. -/
def optStep (framesCount i p : ℕ) (rest : List ℕ) (frames : List (Option ℕ)) :
    Step × List (Option ℕ) :=
  let step := makeStep i p frames
  match frames.findIdx? (· = some p) with
  | some _ =>
    ({ step with
        hit := true
        note := s!"HIT: Page {p} already present."
        frames := frames }, frames)
  | none =>
    match frames.findIdx? (· = none) with
    | some emptyIndex =>
      let frames' := frames.set emptyIndex (some p)
      ({ step with
          fault := true
          note := s!"FAULT: Empty frame used → inserted {p} into frame {emptyIndex}."
          frames := frames' }, frames')
    | none =>
      let scan := optScan rest i frames (List.range framesCount)
        (0, frames.getD 0 none, ⊥)
      let victimIndex := scan.1
      let victimPage := scan.2.1
      let farthestNextUse := scan.2.2
      let frames' := frames.set victimIndex (some p)
      let vp := pageStr victimPage
      let fs := optFarStr farthestNextUse
      ({ step with
          fault := true
          replaced := victimPage
          replacedIndex := some victimIndex
          note := if farthestNextUse = ((⊤ : WithTop ℕ) : WithBot (WithTop ℕ)) then
              s!"FAULT: OPT replaces {vp} (not used again)."
            else
              s!"FAULT: OPT replaces {vp} (used farthest in future at step {fs})."
          frames := frames' }, frames')

/-- The main loop of `simulateOPT`. -/
def optGo (framesCount : ℕ) (frames : List (Option ℕ)) (hits faults i : ℕ) :
    List ℕ → List Step × Summary
  | [] => ([], { hits := hits, faults := faults })
  | p :: rest =>
    let r := optStep framesCount i p rest frames
    let step := r.1
    let rec' := optGo framesCount r.2
      (if step.hit then hits + 1 else hits)
      (if step.fault then faults + 1 else faults) (i + 1) rest
    (step :: rec'.1, rec'.2)

/-- `simulateOPT(framesCount, refs)` from the source. -/
def simulateOPT (framesCount : ℕ) (refs : List ℕ) : SimResult :=
  let r := optGo framesCount (List.replicate framesCount none) 0 0 0 refs
  { steps := r.1, summary := r.2 }

-- ---------- CLOCK ----------

/-- Outcome of one CLOCK eviction scan. -/
structure ClockScanResult where
  frames : List (Option ℕ)
  refBits : List ℕ
  hand : ℕ
  replaced : Option ℕ
  replacedIndex : ℕ
  scans : ℕ
deriving DecidableEq

/-- The CLOCK `while (true)` eviction scan of `simulateCLOCK`.  A frame read
out of range yields the JS `undefined`, which fails the `=== 0` test; this is
embedded by the default `1` in `refBits.getD hand 1`.  The source loop
terminates because it throws once `scans` passes `framesCount * 5`; the
recursion is driven by a fuel argument initialized to that bound plus one, so
the fuel-exhaustion branch repeats the same safety-break error and is provably
unreachable. -/
def clockScan (framesCount p : ℕ) (frames : List (Option ℕ)) (refBits : List ℕ)
    (hand scans : ℕ) : ℕ → Except String ClockScanResult
  | 0 => .error "Clock algorithm safety break (unexpected loop)."
  | fuel + 1 =>
    let scans' := scans + 1
    if refBits.getD hand 1 = 0 then
      let victimIndex := hand
      .ok { frames := frames.set victimIndex (some p)
            refBits := refBits.set victimIndex 1
            hand := (hand + 1) % framesCount
            replaced := frames.getD victimIndex none
            replacedIndex := victimIndex
            scans := scans' }
    else
      let refBits' := refBits.set hand 0
      let hand' := (hand + 1) % framesCount
      if framesCount * 5 < scans' then
        .error "Clock algorithm safety break (unexpected loop)."
      else
        clockScan framesCount p frames refBits' hand' scans' fuel

/-- Body of the CLOCK per-reference loop in `simulateCLOCK`. -/
def clockStep (framesCount i p : ℕ) (frames : List (Option ℕ)) (refBits : List ℕ)
    (hand : ℕ) : Except String (Step × List (Option ℕ) × List ℕ × ℕ) :=
  let step := makeStep i p frames
  match frames.findIdx? (· = some p) with
  | some hitIndex =>
    let refBits' := refBits.set hitIndex 1
    .ok ({ step with
            hit := true
            note := s!"HIT: Page {p} found → set ref bit of frame {hitIndex} to 1."
            frames := frames
            meta := some { refBits := refBits', hand := hand } }, frames, refBits', hand)
  | none =>
    match frames.findIdx? (· = none) with
    | some emptyIndex =>
      let frames' := frames.set emptyIndex (some p)
      let refBits' := refBits.set emptyIndex 1
      .ok ({ step with
              fault := true
              note := s!"FAULT: Empty frame used → inserted {p} into frame {emptyIndex}, ref bit=1."
              frames := frames'
              meta := some { refBits := refBits', hand := hand } }, frames', refBits', hand)
    | none =>
      match clockScan framesCount p frames refBits hand 0 (framesCount * 5 + 1) with
      | .error e => .error e
      | .ok r =>
        let vp := pageStr r.replaced
        .ok ({ step with
                fault := true
                replaced := r.replaced
                replacedIndex := some r.replacedIndex
                note := s!"FAULT: Clock replaced {vp} at frame {r.replacedIndex} after {r.scans} scan(s) (ref bit was 0)."
                frames := r.frames
                meta := some { refBits := r.refBits, hand := r.hand } },
              r.frames, r.refBits, r.hand)

/-- The main loop of `simulateCLOCK`. -/
def clockGo (framesCount : ℕ) (frames : List (Option ℕ)) (refBits : List ℕ)
    (hand hits faults i : ℕ) : List ℕ → Except String (List Step × Summary)
  | [] => .ok ([], { hits := hits, faults := faults })
  | p :: rest =>
    match clockStep framesCount i p frames refBits hand with
    | .error e => .error e
    | .ok r =>
      let step := r.1
      match clockGo framesCount r.2.1 r.2.2.1 r.2.2.2
        (if step.hit then hits + 1 else hits)
        (if step.fault then faults + 1 else faults) (i + 1) rest with
      | .error e => .error e
      | .ok rec' => .ok (step :: rec'.1, rec'.2)

/-- `simulateCLOCK(framesCount, refs)` from the source; the safety-break throw
surfaces as `Except.error`. -/
def simulateCLOCK (framesCount : ℕ) (refs : List ℕ) : Except String SimResult :=
  match clockGo framesCount (List.replicate framesCount none)
    (List.replicate framesCount 0) 0 0 0 0 refs with
  | .error e => .error e
  | .ok r => .ok { steps := r.1, summary := r.2 }

-- ---------- Dispatcher ----------

/-- The distinguishable failure kinds of `simulate` (§7 of the spec; in the
source each is a thrown `Error` with a distinct message). -/
inductive SimError where
  | invalidCapacity : SimError
  | emptyReferenceSequence : SimError
  | unknownPolicy : String → SimError
  | internalInvariant : String → SimError
deriving DecidableEq

/-- `simulate(algoName, framesCount, refs)` from the source.  The JS capacity
is a number checked with `Number.isInteger`; it is embedded as `ℚ` with the
integrality check `den = 1`. -/
def simulate (algoName : String) (framesCount : ℚ) (refs : List ℕ) :
    Except SimError SimResult :=
  if framesCount.den = 1 ∧ 1 ≤ framesCount ∧ framesCount ≤ 50 then
    if refs = [] then .error .emptyReferenceSequence
    else
      let c := framesCount.num.toNat
      match algoName with
      | "FIFO" => .ok (simulateFIFO c refs)
      | "LRU" => .ok (simulateLRU c refs)
      | "OPT" => .ok (simulateOPT c refs)
      | "CLOCK" =>
        match simulateCLOCK c refs with
        | .ok r => .ok r
        | .error m => .error (.internalInvariant m)
      | other => .error (.unknownPolicy other)
  else .error .invalidCapacity

-- ---------- Frame-table helpers ----------

/-- The set of resident pages of a frame table. -/
def pagesOf (frames : List (Option ℕ)) : Finset ℕ :=
  (frames.filterMap id).toFinset

/-- Minimum of a list of naturals (`0` for the empty list, never used there). -/
def listMinD : List ℕ → ℕ
  | [] => 0
  | [x] => x
  | x :: y :: xs => min x (listMinD (y :: xs))

/-- Cost of an optimal demand-paging schedule with capacity `c` from cache `C`
on the remaining reference list: on a fault with a full cache, the schedule may
evict any resident page, and the optimum takes the cheapest choice. -/
def OPTcost (c : ℕ) : Finset ℕ → List ℕ → ℕ
  | _, [] => 0
  | C, q :: r =>
    if q ∈ C then OPTcost c C r
    else if C.card < c then 1 + OPTcost c (insert q C) r
    else 1 + listMinD ((C.sort (· ≤ ·)).map fun e => OPTcost c (insert q (C.erase e)) r)
termination_by C r => r.length

/-- The comparison value the LRU scan computes for slot `fi`
(the `t` of the source loop). -/
def lruScore (frames : List (Option ℕ)) (lastUsed : List (ℕ × ℕ))
    (fallback : WithBot ℕ) (fi : ℕ) : WithBot ℕ :=
  match frames.getD fi none with
  | some pg =>
    match lastUsed.lookup pg with
    | some v => (v : WithBot ℕ)
    | none => fallback
  | none => fallback

/-- The next-use value the OPT scan computes for slot `fi`
(the `nextUse` of the source loop, as an absolute reference index). -/
def optScore (rest : List ℕ) (i : ℕ) (frames : List (Option ℕ)) (fi : ℕ) : WithTop ℕ :=
  match frames.getD fi none with
  | some pg => nextUse pg rest + ((i + 1 : ℕ) : WithTop ℕ)
  | none => ⊤

/-- The step record's snapshot is what applying the step's recorded decision
(hit: unchanged; fault with eviction: overwrite the evicted slot; fault
without eviction: insert into the first empty slot) yields from the previous
table. -/
def decisionApplied (prev : List (Option ℕ)) (s : Step) : Prop :=
  (s.hit = true → s.frames = prev) ∧
  (s.fault = true →
    match s.replacedIndex with
    | some vi => s.frames = prev.set vi (some s.page) ∧ s.replaced = prev.getD vi none
    | none => ∃ ei, prev.findIdx? (· = none) = some ei ∧
        s.frames = prev.set ei (some s.page))

/-- Each snapshot of a trace is obtained from the previous snapshot by the
recorded decision. -/
def snapshotsChain (prev : List (Option ℕ)) : List Step → Prop
  | [] => True
  | s :: rest => decisionApplied prev s ∧ snapshotsChain s.frames rest

/-- The reference-bit array after the first `d` steps of a CLOCK scan that
found no zero bit yet: each visited slot is cleared to `0` before the hand
advances. -/
def clearBits (c : ℕ) (refBits : List ℕ) (hand : ℕ) : ℕ → List ℕ
  | 0 => refBits
  | d + 1 => clearBits c (refBits.set (hand % c) 0) (hand + 1) d

theorem mem_pagesOf {frames : List (Option ℕ)} {p : ℕ} :
    p ∈ pagesOf frames ↔ some p ∈ frames := by
  simp [pagesOf, List.mem_filterMap]

/-- Splitting `filterMap id` at a position. -/
theorem filterMap_id_split (frames : List (Option ℕ)) :
    ∀ vi : ℕ, vi < frames.length →
      frames.filterMap id =
        (frames.take vi).filterMap id ++ (frames.getD vi none).toList ++
          (frames.drop (vi + 1)).filterMap id := by
  induction frames with
  | nil => intro vi h; simp at h
  | cons a l ih =>
    intro vi h
    cases vi with
    | zero => cases a <;> simp
    | succ n =>
      have hn : n < l.length := by simpa using h
      have := ih n hn
      cases a <;> simp [this, List.getD_cons_succ]

/-- `filterMap id` after a `set` at a position. -/
theorem filterMap_id_set (frames : List (Option ℕ)) :
    ∀ (vi : ℕ) (x : Option ℕ), vi < frames.length →
      (frames.set vi x).filterMap id =
        (frames.take vi).filterMap id ++ x.toList ++
          (frames.drop (vi + 1)).filterMap id := by
  induction frames with
  | nil => intro vi x h; simp at h
  | cons a l ih =>
    intro vi x h
    cases vi with
    | zero => cases x <;> cases a <;> simp
    | succ n =>
      have hn : n < l.length := by simpa using h
      have := ih n x hn
      cases a <;> simp [this]

theorem length_filterMap_id_le (frames : List (Option ℕ)) :
    (frames.filterMap id).length ≤ frames.length := by
  induction frames with
  | nil => simp
  | cons a l ih => cases a <;> simp <;> omega

theorem length_filterMap_id_lt_iff (frames : List (Option ℕ)) :
    (frames.filterMap id).length < frames.length ↔ none ∈ frames := by
  induction frames with
  | nil => simp
  | cons a l ih =>
    cases a with
    | none =>
      have hstep : ((none :: l).filterMap id) = l.filterMap id := rfl
      have hle := length_filterMap_id_le l
      rw [hstep]
      simp only [List.length_cons, List.mem_cons]
      constructor
      · intro _; exact Or.inl trivial
      · intro _; omega
    | some v =>
      have hstep : ((some v :: l).filterMap id) = v :: l.filterMap id := rfl
      rw [hstep]
      simp only [List.length_cons, List.mem_cons]
      constructor
      · intro h
        have := Nat.lt_of_succ_lt_succ h
        exact Or.inr (ih.mp this)
      · rintro (h | h)
        · exact absurd h (by simp)
        · exact Nat.succ_lt_succ (ih.mpr h)

theorem card_pagesOf_of_nodup {frames : List (Option ℕ)}
    (hnd : (frames.filterMap id).Nodup) :
    (pagesOf frames).card = (frames.filterMap id).length := by
  simpa [pagesOf] using List.toFinset_card_of_nodup hnd

theorem card_pagesOf_lt_iff {frames : List (Option ℕ)} {c : ℕ}
    (hlen : frames.length = c) (hnd : (frames.filterMap id).Nodup) :
    (pagesOf frames).card < c ↔ none ∈ frames := by
  rw [card_pagesOf_of_nodup hnd, ← hlen]
  exact length_filterMap_id_lt_iff frames

-- ---------- Offline optimal cost ----------

theorem listMinD_le : ∀ {l : List ℕ} {x : ℕ}, x ∈ l → listMinD l ≤ x := by
  intro l
  induction l with
  | nil => intro x h; simp at h
  | cons a t ih =>
    intro x h
    cases t with
    | nil =>
      simp at h
      simp [listMinD, h]
    | cons b u =>
      rcases List.mem_cons.mp h with h | h
      · subst h; simp [listMinD]
      · have := ih h
        simp only [listMinD]
        omega

theorem listMinD_mem : ∀ {l : List ℕ}, l ≠ [] → listMinD l ∈ l := by
  intro l
  induction l with
  | nil => intro h; exact absurd rfl h
  | cons a t ih =>
    intro _
    cases t with
    | nil => simp [listMinD]
    | cons b u =>
      simp only [listMinD]
      rcases Nat.le_total a (listMinD (b :: u)) with h | h
      · simp [min_eq_left h]
      · have := ih (by simp)
        rw [min_eq_right h]
        exact List.mem_cons_of_mem a this

theorem OPTcost_nil (c : ℕ) (C : Finset ℕ) : OPTcost c C [] = 0 := by
  rw [OPTcost.eq_def]

theorem OPTcost_cons (c : ℕ) (C : Finset ℕ) (q : ℕ) (r : List ℕ) :
    OPTcost c C (q :: r) =
      if q ∈ C then OPTcost c C r
      else if C.card < c then 1 + OPTcost c (insert q C) r
      else 1 + listMinD ((C.sort (· ≤ ·)).map fun e => OPTcost c (insert q (C.erase e)) r) := by
  rw [OPTcost.eq_def]

theorem OPTcost_hit {c : ℕ} {C : Finset ℕ} {q : ℕ} (r : List ℕ) (h : q ∈ C) :
    OPTcost c C (q :: r) = OPTcost c C r := by
  rw [OPTcost_cons, if_pos h]

theorem OPTcost_fill {c : ℕ} {C : Finset ℕ} {q : ℕ} (r : List ℕ) (h : q ∉ C)
    (hc : C.card < c) :
    OPTcost c C (q :: r) = 1 + OPTcost c (insert q C) r := by
  rw [OPTcost_cons, if_neg h, if_pos hc]

theorem OPTcost_evict {c : ℕ} {C : Finset ℕ} {q : ℕ} (r : List ℕ) (h : q ∉ C)
    (hc : ¬ C.card < c) :
    OPTcost c C (q :: r) =
      1 + listMinD ((C.sort (· ≤ ·)).map fun e => OPTcost c (insert q (C.erase e)) r) := by
  rw [OPTcost_cons, if_neg h, if_neg hc]

theorem OPTcost_evict_le {c : ℕ} {C : Finset ℕ} {q e : ℕ} (r : List ℕ) (h : q ∉ C)
    (hc : ¬ C.card < c) (he : e ∈ C) :
    OPTcost c C (q :: r) ≤ 1 + OPTcost c (insert q (C.erase e)) r := by
  rw [OPTcost_evict r h hc]
  have hmem : OPTcost c (insert q (C.erase e)) r ∈
      (C.sort (· ≤ ·)).map fun e => OPTcost c (insert q (C.erase e)) r :=
    List.mem_map_of_mem _ ((Finset.mem_sort _).mpr he)
  have := listMinD_le hmem
  omega

theorem OPTcost_evict_witness {c : ℕ} {C : Finset ℕ} {q : ℕ} (r : List ℕ) (h : q ∉ C)
    (hc : ¬ C.card < c) (hne : C.Nonempty) :
    ∃ e ∈ C, OPTcost c C (q :: r) = 1 + OPTcost c (insert q (C.erase e)) r := by
  have hl : C.sort (· ≤ ·) ≠ [] := by
    intro hnil
    have hls := Finset.length_sort (α := ℕ) (· ≤ ·) (s := C)
    rw [hnil] at hls
    simp at hls
    rcases hne with ⟨x, hx⟩
    have := Finset.card_pos.mpr ⟨x, hx⟩
    omega
  have hmem := listMinD_mem
    (l := (C.sort (· ≤ ·)).map fun e => OPTcost c (insert q (C.erase e)) r)
    (by simpa using hl)
  rcases List.mem_map.mp hmem with ⟨e, heC, heq⟩
  exact ⟨e, (Finset.mem_sort _).mp heC, by rw [OPTcost_evict r h hc, heq]⟩

/-- A larger cache (same capacity bound) never costs more. -/
theorem OPTcost_mono (c : ℕ) :
    ∀ (r : List ℕ) (C D : Finset ℕ), C ⊆ D → D.card ≤ c →
      OPTcost c D r ≤ OPTcost c C r := by
  intro r
  induction r with
  | nil => intro C D _ _; simp [OPTcost_nil]
  | cons q r ih =>
    intro C D hCD hD
    by_cases hqC : q ∈ C
    · have hqD : q ∈ D := hCD hqC
      rw [OPTcost_hit r hqC, OPTcost_hit r hqD]
      exact ih C D hCD hD
    · by_cases hqD : q ∈ D
      · rw [OPTcost_hit r hqD]
        by_cases hC : C.card < c
        · rw [OPTcost_fill r hqC hC]
          have hsub : insert q C ⊆ D := by
            rw [Finset.insert_subset_iff]; exact ⟨hqD, hCD⟩
          have := ih (insert q C) D hsub hD
          omega
        · exfalso
          have h1 : C.card ≤ D.card := Finset.card_le_card hCD
          have h2 : C = D := Finset.eq_of_subset_of_card_le hCD (by omega)
          exact hqC (h2 ▸ hqD)
      · by_cases hC : C.card < c
        · rw [OPTcost_fill r hqC hC]
          by_cases hDc : D.card < c
          · rw [OPTcost_fill r hqD hDc]
            have hsub : insert q C ⊆ insert q D := Finset.insert_subset_insert q hCD
            have hcard : (insert q D).card ≤ c := by
              rw [Finset.card_insert_of_not_mem hqD]; omega
            have := ih (insert q C) (insert q D) hsub hcard
            omega
          · obtain ⟨f, hfD, hfC⟩ : ∃ f ∈ D, f ∉ C := by
              by_contra hno
              push_neg at hno
              have hDC : D ⊆ C := fun x hx => hno x hx
              have := Finset.card_le_card hDC
              have := Finset.card_le_card hCD
              have hEq : C = D := Finset.eq_of_subset_of_card_le hCD (by omega)
              rw [hEq] at hC
              exact hDc hC
            have hle := OPTcost_evict_le (C := D) (q := q) (e := f) r hqD hDc hfD
            have hsub : insert q C ⊆ insert q (D.erase f) := by
              refine Finset.insert_subset_insert q fun x hx => ?_
              exact Finset.mem_erase.mpr ⟨fun hxf => hfC (hxf ▸ hx), hCD hx⟩
            have hDpos : 1 ≤ D.card := Finset.card_pos.mpr ⟨f, hfD⟩
            have hcard : (insert q (D.erase f)).card ≤ c := by
              have hq' : q ∉ D.erase f := fun hq' => hqD (Finset.mem_of_mem_erase hq')
              rw [Finset.card_insert_of_not_mem hq', Finset.card_erase_of_mem hfD]
              omega
            have := ih (insert q C) (insert q (D.erase f)) hsub hcard
            omega
        · have h1 : C.card ≤ D.card := Finset.card_le_card hCD
          have hEq : C = D := Finset.eq_of_subset_of_card_le hCD (by omega)
          rw [hEq]

-- ---------- nextUse facts ----------

theorem nextUse_cons_self (p : ℕ) (r : List ℕ) : nextUse p (p :: r) = 0 := by
  simp [nextUse]

theorem nextUse_cons_ne {p q : ℕ} (r : List ℕ) (h : q ≠ p) :
    nextUse p (q :: r) = nextUse p r + 1 := by
  simp [nextUse, h]

theorem withTop_zero_lt_succ (x : WithTop ℕ) : (0 : WithTop ℕ) < x + 1 :=
  lt_of_lt_of_le zero_lt_one le_add_self

theorem withTop_succ_le_succ_iff {x y : WithTop ℕ} : x + 1 ≤ y + 1 ↔ x ≤ y :=
  WithTop.add_le_add_iff_right (by simp)

/-- Joint exchange bounds for `OPTcost`: replacing one cached page by another
costs at most one extra fault, and removing one cached page costs at most one
extra fault. -/
theorem OPTcost_MN (c : ℕ) :
    ∀ r : List ℕ,
      (∀ (S : Finset ℕ) (x y : ℕ), x ∉ S → y ∉ S → (insert x S).card ≤ c →
        OPTcost c (insert x S) r ≤ 1 + OPTcost c (insert y S) r) ∧
      (∀ (C : Finset ℕ) (y : ℕ), y ∉ C → (insert y C).card ≤ c →
        OPTcost c C r ≤ 1 + OPTcost c (insert y C) r) := by
  intro r
  induction r with
  | nil =>
    constructor
    · intro S x y _ _ _; simp [OPTcost_nil]
    · intro C y _ _; simp [OPTcost_nil]
  | cons q r ih =>
    obtain ⟨ihM, ihN⟩ := ih
    constructor
    · -- the swap bound
      intro S x y hx hy hcard
      rcases eq_or_ne x y with rfl | hxy
      · exact Nat.le_add_left _ 1
      have hxB : x ∉ insert y S := by
        simp only [Finset.mem_insert]; push_neg; exact ⟨hxy, hx⟩
      have hyA : y ∉ insert x S := by
        simp only [Finset.mem_insert]; push_neg; exact ⟨Ne.symm hxy, hy⟩
      have hcAS : (insert x S).card = S.card + 1 := Finset.card_insert_of_not_mem hx
      have hcBS : (insert y S).card = S.card + 1 := Finset.card_insert_of_not_mem hy
      by_cases hqx : q = x
      · rw [hqx]
        rw [OPTcost_hit r (Finset.mem_insert_self x S)]
        by_cases hBc : (insert y S).card < c
        · rw [OPTcost_fill r hxB hBc]
          rw [Finset.Insert.comm x y S]
          have hN := ihN (insert x S) y hyA
            (by rw [Finset.card_insert_of_not_mem hyA]; omega)
          omega
        · obtain ⟨e, heB, hEq⟩ :=
            OPTcost_evict_witness r hxB hBc ⟨y, Finset.mem_insert_self y S⟩
          rw [hEq]
          rcases Finset.mem_insert.mp heB with rfl | heS
          · rw [Finset.erase_insert hy]
            omega
          · have heny : e ≠ y := fun h => hy (h ▸ heS)
            have henx : e ≠ x := fun h => hx (h ▸ heS)
            rw [Finset.erase_insert_of_ne (Ne.symm heny),
                Finset.Insert.comm x y (S.erase e)]
            have hA : insert x S = insert e (insert x (S.erase e)) := by
              rw [Finset.Insert.comm, Finset.insert_erase heS]
            have heT : e ∉ insert x (S.erase e) := by
              simp only [Finset.mem_insert]; push_neg
              exact ⟨henx, Finset.not_mem_erase e S⟩
            have hyT : y ∉ insert x (S.erase e) := by
              simp only [Finset.mem_insert]; push_neg
              exact ⟨Ne.symm hxy, fun h => hy (Finset.mem_of_mem_erase h)⟩
            have hcT : (insert e (insert x (S.erase e))).card ≤ c := by
              rw [← hA]; exact hcard
            have hM := ihM (insert x (S.erase e)) e y heT hyT hcT
            rw [hA]
            omega
      · by_cases hqy : q = y
        · rw [hqy]
          rw [OPTcost_hit r (Finset.mem_insert_self y S)]
          have hyA' : y ∉ insert x S := hyA
          by_cases hAc : (insert x S).card < c
          · rw [OPTcost_fill r hyA' hAc]
            have hmono := OPTcost_mono c r (insert y S) (insert y (insert x S))
              (Finset.insert_subset_insert y (Finset.subset_insert x S))
              (by rw [Finset.card_insert_of_not_mem hyA]; omega)
            omega
          · have hle := OPTcost_evict_le (C := insert x S) (q := y) (e := x) r hyA' hAc
              (Finset.mem_insert_self x S)
            rw [Finset.erase_insert hx] at hle
            omega
        · by_cases hqS : q ∈ S
          · rw [OPTcost_hit r (Finset.mem_insert_of_mem hqS),
                OPTcost_hit r (Finset.mem_insert_of_mem hqS)]
            exact ihM S x y hx hy hcard
          · have hqA : q ∉ insert x S := by
              simp only [Finset.mem_insert]; push_neg; exact ⟨hqx, hqS⟩
            have hqB : q ∉ insert y S := by
              simp only [Finset.mem_insert]; push_neg; exact ⟨hqy, hqS⟩
            by_cases hAc : (insert x S).card < c
            · have hBc : (insert y S).card < c := by omega
              rw [OPTcost_fill r hqA hAc, OPTcost_fill r hqB hBc,
                  Finset.Insert.comm q x S, Finset.Insert.comm q y S]
              have hxqS : x ∉ insert q S := by
                simp only [Finset.mem_insert]; push_neg
                exact ⟨fun h => hqx h.symm, hx⟩
              have hyqS : y ∉ insert q S := by
                simp only [Finset.mem_insert]; push_neg
                exact ⟨fun h => hqy h.symm, hy⟩
              have hcq : (insert x (insert q S)).card ≤ c := by
                rw [Finset.card_insert_of_not_mem hxqS,
                    Finset.card_insert_of_not_mem hqS]
                omega
              have hM := ihM (insert q S) x y hxqS hyqS hcq
              omega
            · have hBc : ¬ (insert y S).card < c := by omega
              obtain ⟨f, hfB, hEqB⟩ :=
                OPTcost_evict_witness r hqB hBc ⟨y, Finset.mem_insert_self y S⟩
              rw [hEqB]
              rcases Finset.mem_insert.mp hfB with rfl | hfS
              · rw [Finset.erase_insert hy]
                have hle := OPTcost_evict_le (C := insert x S) (q := q) (e := x) r
                  hqA hAc (Finset.mem_insert_self x S)
                rw [Finset.erase_insert hx] at hle
                omega
              · have hfny : f ≠ y := fun h => hy (h ▸ hfS)
                have hfnx : f ≠ x := fun h => hx (h ▸ hfS)
                have hle := OPTcost_evict_le (C := insert x S) (q := q) (e := f) r
                  hqA hAc (Finset.mem_insert_of_mem hfS)
                rw [Finset.erase_insert_of_ne (Ne.symm hfnx),
                    Finset.Insert.comm q x (S.erase f)] at hle
                rw [Finset.erase_insert_of_ne (Ne.symm hfny),
                    Finset.Insert.comm q y (S.erase f)]
                have hxT : x ∉ insert q (S.erase f) := by
                  simp only [Finset.mem_insert]; push_neg
                  exact ⟨fun h => hqx h.symm, fun h => hx (Finset.mem_of_mem_erase h)⟩
                have hyT : y ∉ insert q (S.erase f) := by
                  simp only [Finset.mem_insert]; push_neg
                  exact ⟨fun h => hqy h.symm, fun h => hy (Finset.mem_of_mem_erase h)⟩
                have hcT : (insert x (insert q (S.erase f))).card ≤ c := by
                  have hfq : q ∉ S.erase f := fun h => hqS (Finset.mem_of_mem_erase h)
                  rw [Finset.card_insert_of_not_mem hxT,
                      Finset.card_insert_of_not_mem hfq,
                      Finset.card_erase_of_mem hfS]
                  have : 1 ≤ S.card := Finset.card_pos.mpr ⟨f, hfS⟩
                  omega
                have hM := ihM (insert q (S.erase f)) x y hxT hyT hcT
                omega
    · -- the drop bound
      intro C y hy hcard
      have hcB : (insert y C).card = C.card + 1 := Finset.card_insert_of_not_mem hy
      by_cases hqC : q ∈ C
      · rw [OPTcost_hit r hqC, OPTcost_hit r (Finset.mem_insert_of_mem hqC)]
        exact ihN C y hy hcard
      · by_cases hqy : q = y
        · rw [hqy]
          rw [OPTcost_hit r (Finset.mem_insert_self y C)]
          have hyC : y ∉ C := hy
          have hCc : C.card < c := by omega
          rw [OPTcost_fill r hyC hCc]
        · have hqB : q ∉ insert y C := by
            simp only [Finset.mem_insert]; push_neg; exact ⟨hqy, hqC⟩
          have hCc : C.card < c := by omega
          rw [OPTcost_fill r hqC hCc]
          by_cases hBc : (insert y C).card < c
          · rw [OPTcost_fill r hqB hBc, Finset.Insert.comm q y C]
            have hyqC : y ∉ insert q C := by
              simp only [Finset.mem_insert]; push_neg
              exact ⟨fun h => hqy h.symm, hy⟩
            have hc2 : (insert y (insert q C)).card ≤ c := by
              rw [Finset.card_insert_of_not_mem hyqC,
                  Finset.card_insert_of_not_mem hqC]
              omega
            have hN := ihN (insert q C) y hyqC hc2
            omega
          · obtain ⟨f, hfB, hEq⟩ :=
              OPTcost_evict_witness r hqB hBc ⟨y, Finset.mem_insert_self y C⟩
            rw [hEq]
            rcases Finset.mem_insert.mp hfB with rfl | hfC
            · rw [Finset.erase_insert hy]
              omega
            · have hfny : f ≠ y := fun h => hy (h ▸ hfC)
              rw [Finset.erase_insert_of_ne (Ne.symm hfny),
                  Finset.Insert.comm q y (C.erase f)]
              have hA2 : insert q C = insert f (insert q (C.erase f)) := by
                rw [Finset.Insert.comm, Finset.insert_erase hfC]
              have hfT : f ∉ insert q (C.erase f) := by
                simp only [Finset.mem_insert]; push_neg
                exact ⟨fun h => hqC (h ▸ hfC), Finset.not_mem_erase f C⟩
              have hyT : y ∉ insert q (C.erase f) := by
                simp only [Finset.mem_insert]; push_neg
                exact ⟨fun h => hqy h.symm, fun h => hy (Finset.mem_of_mem_erase h)⟩
              have hcT : (insert f (insert q (C.erase f))).card ≤ c := by
                rw [← hA2, Finset.card_insert_of_not_mem hqC]
                omega
              have hM := ihM (insert q (C.erase f)) f y hfT hyT hcT
              rw [hA2]
              omega

/-- Belady exchange: if `a` is next used no later than `b`, then caching `a`
instead of `b` (all else equal) never costs more. -/
theorem OPTcost_farther (c : ℕ) :
    ∀ (r : List ℕ) (S : Finset ℕ) (a b : ℕ),
      a ∉ S → b ∉ S → (insert a S).card ≤ c → nextUse a r ≤ nextUse b r →
      OPTcost c (insert a S) r ≤ OPTcost c (insert b S) r := by
  intro r
  induction r with
  | nil => intro S a b _ _ _ _; simp [OPTcost_nil]
  | cons q r ih =>
    intro S a b ha hb hcard hnext
    rcases eq_or_ne a b with rfl | hab
    · exact le_refl _
    have haB : a ∉ insert b S := by
      simp only [Finset.mem_insert]; push_neg; exact ⟨hab, ha⟩
    have hbA : b ∉ insert a S := by
      simp only [Finset.mem_insert]; push_neg; exact ⟨Ne.symm hab, hb⟩
    have hcAS : (insert a S).card = S.card + 1 := Finset.card_insert_of_not_mem ha
    have hcBS : (insert b S).card = S.card + 1 := Finset.card_insert_of_not_mem hb
    obtain ⟨ihM, ihN⟩ := OPTcost_MN c r
    by_cases hqa : q = a
    · rw [hqa]
      rw [OPTcost_hit r (Finset.mem_insert_self a S)]
      by_cases hBc : (insert b S).card < c
      · rw [OPTcost_fill r haB hBc, Finset.Insert.comm a b S]
        have hN := ihN (insert a S) b hbA
          (by rw [Finset.card_insert_of_not_mem hbA]; omega)
        omega
      · obtain ⟨e, heB, hEq⟩ :=
          OPTcost_evict_witness r haB hBc ⟨b, Finset.mem_insert_self b S⟩
        rw [hEq]
        rcases Finset.mem_insert.mp heB with rfl | heS
        · rw [Finset.erase_insert hb]
          omega
        · have henb : e ≠ b := fun h => hb (h ▸ heS)
          have hena : e ≠ a := fun h => ha (h ▸ heS)
          rw [Finset.erase_insert_of_ne (Ne.symm henb),
              Finset.Insert.comm a b (S.erase e)]
          have hA : insert a S = insert e (insert a (S.erase e)) := by
            rw [Finset.Insert.comm, Finset.insert_erase heS]
          have heT : e ∉ insert a (S.erase e) := by
            simp only [Finset.mem_insert]; push_neg
            exact ⟨hena, Finset.not_mem_erase e S⟩
          have hbT : b ∉ insert a (S.erase e) := by
            simp only [Finset.mem_insert]; push_neg
            exact ⟨Ne.symm hab, fun h => hb (Finset.mem_of_mem_erase h)⟩
          have hcT : (insert e (insert a (S.erase e))).card ≤ c := by
            rw [← hA]; exact hcard
          have hM := ihM (insert a (S.erase e)) e b heT hbT hcT
          rw [hA]
          omega
    · by_cases hqb : q = b
      · exfalso
        rw [hqb, nextUse_cons_self] at hnext
        rw [hqb] at hqa
        rw [nextUse_cons_ne r hqa] at hnext
        have h0 : nextUse a r + 1 = 0 := le_antisymm hnext (zero_le _)
        exact absurd h0 (ne_of_gt (withTop_zero_lt_succ _))
      · have hnext' : nextUse a r ≤ nextUse b r := by
          rw [nextUse_cons_ne r hqa, nextUse_cons_ne r hqb] at hnext
          exact withTop_succ_le_succ_iff.mp hnext
        by_cases hqS : q ∈ S
        · rw [OPTcost_hit r (Finset.mem_insert_of_mem hqS),
              OPTcost_hit r (Finset.mem_insert_of_mem hqS)]
          exact ih S a b ha hb hcard hnext'
        · have hqA : q ∉ insert a S := by
            simp only [Finset.mem_insert]; push_neg; exact ⟨hqa, hqS⟩
          have hqB : q ∉ insert b S := by
            simp only [Finset.mem_insert]; push_neg; exact ⟨hqb, hqS⟩
          by_cases hAc : (insert a S).card < c
          · have hBc : (insert b S).card < c := by omega
            rw [OPTcost_fill r hqA hAc, OPTcost_fill r hqB hBc,
                Finset.Insert.comm q a S, Finset.Insert.comm q b S]
            have haq : a ∉ insert q S := by
              simp only [Finset.mem_insert]; push_neg
              exact ⟨fun h => hqa h.symm, ha⟩
            have hbq : b ∉ insert q S := by
              simp only [Finset.mem_insert]; push_neg
              exact ⟨fun h => hqb h.symm, hb⟩
            have hcq : (insert a (insert q S)).card ≤ c := by
              rw [Finset.card_insert_of_not_mem haq,
                  Finset.card_insert_of_not_mem hqS]
              omega
            have := ih (insert q S) a b haq hbq hcq hnext'
            omega
          · have hBc : ¬ (insert b S).card < c := by omega
            obtain ⟨f, hfB, hEqB⟩ :=
              OPTcost_evict_witness r hqB hBc ⟨b, Finset.mem_insert_self b S⟩
            rw [hEqB]
            rcases Finset.mem_insert.mp hfB with rfl | hfS
            · rw [Finset.erase_insert hb]
              have hle := OPTcost_evict_le (C := insert a S) (q := q) (e := a) r
                hqA hAc (Finset.mem_insert_self a S)
              rw [Finset.erase_insert ha] at hle
              omega
            · have hfnb : f ≠ b := fun h => hb (h ▸ hfS)
              have hfna : f ≠ a := fun h => ha (h ▸ hfS)
              have hle := OPTcost_evict_le (C := insert a S) (q := q) (e := f) r
                hqA hAc (Finset.mem_insert_of_mem hfS)
              rw [Finset.erase_insert_of_ne (Ne.symm hfna),
                  Finset.Insert.comm q a (S.erase f)] at hle
              rw [Finset.erase_insert_of_ne (Ne.symm hfnb),
                  Finset.Insert.comm q b (S.erase f)]
              have haT : a ∉ insert q (S.erase f) := by
                simp only [Finset.mem_insert]; push_neg
                exact ⟨fun h => hqa h.symm, fun h => ha (Finset.mem_of_mem_erase h)⟩
              have hbT : b ∉ insert q (S.erase f) := by
                simp only [Finset.mem_insert]; push_neg
                exact ⟨fun h => hqb h.symm, fun h => hb (Finset.mem_of_mem_erase h)⟩
              have hcT : (insert a (insert q (S.erase f))).card ≤ c := by
                have hfq : q ∉ S.erase f := fun h => hqS (Finset.mem_of_mem_erase h)
                rw [Finset.card_insert_of_not_mem haT,
                    Finset.card_insert_of_not_mem hfq,
                    Finset.card_erase_of_mem hfS]
                have : 1 ≤ S.card := Finset.card_pos.mpr ⟨f, hfS⟩
                omega
              have := ih (insert q (S.erase f)) a b haT hbT hcT hnext'
              omega

-- ---------- findIdx? and set/pagesOf bridges ----------

theorem findIdx?_eq_none_not_mem {frames : List (Option ℕ)} {x : Option ℕ} :
    frames.findIdx? (· = x) = none ↔ x ∉ frames := by
  rw [List.findIdx?_eq_none_iff]
  constructor
  · intro h hx
    have := h x hx
    simp at this
  · intro h y hy
    simp only [decide_eq_false_iff_not]
    intro hyx
    exact h (hyx ▸ hy)

theorem findIdx?_some_getD {frames : List (Option ℕ)} {x : Option ℕ} {k : ℕ}
    (h : frames.findIdx? (· = x) = some k) :
    k < frames.length ∧ frames.getD k none = x ∧
      ∀ j, j < k → frames.getD j none ≠ x := by
  rw [List.findIdx?_eq_some_iff_getElem] at h
  obtain ⟨hk, hx, hprev⟩ := h
  refine ⟨hk, ?_, ?_⟩
  · rw [List.getD_eq_getElem frames none hk]
    simpa using hx
  · intro j hj
    rw [List.getD_eq_getElem frames none (hj.trans hk)]
    have := hprev j hj
    simpa using this

theorem getD_mem {frames : List (Option ℕ)} {k : ℕ} (hk : k < frames.length) :
    frames.getD k none ∈ frames := by
  rw [List.getD_eq_getElem frames none hk]
  exact List.getElem_mem hk

/-- Splitting `pagesOf` at a non-empty slot. -/
theorem pagesOf_split_some {frames : List (Option ℕ)} {vi : ℕ} {e : ℕ}
    (hlt : vi < frames.length) (h : frames.getD vi none = some e) :
    frames.filterMap id =
      (frames.take vi).filterMap id ++ e :: (frames.drop (vi + 1)).filterMap id := by
  have := filterMap_id_split frames vi hlt
  rw [h] at this
  simpa using this

theorem pagesOf_split_none {frames : List (Option ℕ)} {vi : ℕ}
    (hlt : vi < frames.length) (h : frames.getD vi none = none) :
    frames.filterMap id =
      (frames.take vi).filterMap id ++ (frames.drop (vi + 1)).filterMap id := by
  have := filterMap_id_split frames vi hlt
  rw [h] at this
  simpa using this

theorem filterMap_set_some {frames : List (Option ℕ)} {vi : ℕ} (p : ℕ)
    (hlt : vi < frames.length) :
    (frames.set vi (some p)).filterMap id =
      (frames.take vi).filterMap id ++ p :: (frames.drop (vi + 1)).filterMap id := by
  have := filterMap_id_set frames vi (some p) hlt
  simpa using this

theorem pagesOf_set_of_none {frames : List (Option ℕ)} {ei : ℕ} {p : ℕ}
    (hlt : ei < frames.length) (h : frames.getD ei none = none) :
    pagesOf (frames.set ei (some p)) = insert p (pagesOf frames) := by
  unfold pagesOf
  rw [filterMap_set_some p hlt, pagesOf_split_none hlt h]
  ext x
  simp only [List.mem_toFinset, List.mem_append, List.mem_cons, Finset.mem_insert]
  tauto

theorem nodup_set_of_none {frames : List (Option ℕ)} {ei : ℕ} {p : ℕ}
    (hlt : ei < frames.length) (h : frames.getD ei none = none)
    (hnd : (frames.filterMap id).Nodup) (hp : p ∉ pagesOf frames) :
    ((frames.set ei (some p)).filterMap id).Nodup := by
  rw [filterMap_set_some p hlt]
  rw [pagesOf_split_none hlt h] at hnd
  have hperm : List.Perm
      ((frames.take ei).filterMap id ++ p :: (frames.drop (ei + 1)).filterMap id)
      (p :: ((frames.take ei).filterMap id ++ (frames.drop (ei + 1)).filterMap id)) :=
    List.perm_middle
  rw [hperm.nodup_iff]
  refine List.Nodup.cons ?_ hnd
  intro hmem
  apply hp
  rw [mem_pagesOf]
  have hx : p ∈ frames.filterMap id := by
    rw [pagesOf_split_none hlt h]; exact hmem
  rcases List.mem_filterMap.mp hx with ⟨o, ho, hop⟩
  simp only [id] at hop
  rw [hop] at ho
  exact ho

theorem pagesOf_set_of_some {frames : List (Option ℕ)} {vi : ℕ} {e p : ℕ}
    (hlt : vi < frames.length) (h : frames.getD vi none = some e)
    (hnd : (frames.filterMap id).Nodup) :
    pagesOf (frames.set vi (some p)) = insert p ((pagesOf frames).erase e) := by
  have hsplit := pagesOf_split_some hlt h
  have hset := filterMap_set_some p hlt
  have hnd' := hnd
  rw [hsplit] at hnd'
  have hperm : List.Perm
      ((frames.take vi).filterMap id ++ e :: (frames.drop (vi + 1)).filterMap id)
      (e :: ((frames.take vi).filterMap id ++ (frames.drop (vi + 1)).filterMap id)) :=
    List.perm_middle
  have hndc := hperm.nodup_iff.mp hnd'
  have hnotmem : e ∉ (frames.take vi).filterMap id ++ (frames.drop (vi + 1)).filterMap id :=
    (List.nodup_cons.mp hndc).1
  unfold pagesOf
  rw [hset, hsplit]
  ext x
  simp only [List.mem_toFinset, List.mem_append, List.mem_cons, Finset.mem_insert,
    Finset.mem_erase]
  constructor
  · rintro (hx | rfl | hx)
    · by_cases hxe : x = e
      · exact absurd (hxe ▸ hx) fun hc => hnotmem (List.mem_append.mpr (Or.inl hc))
      · exact Or.inr ⟨hxe, Or.inl hx⟩
    · exact Or.inl rfl
    · by_cases hxe : x = e
      · exact absurd (hxe ▸ hx) fun hc => hnotmem (List.mem_append.mpr (Or.inr hc))
      · exact Or.inr ⟨hxe, Or.inr (Or.inr hx)⟩
  · rintro (rfl | ⟨hxe, hx | rfl | hx⟩)
    · exact Or.inr (Or.inl rfl)
    · exact Or.inl hx
    · exact absurd rfl hxe
    · exact Or.inr (Or.inr hx)

theorem nodup_set_of_some {frames : List (Option ℕ)} {vi : ℕ} {e p : ℕ}
    (hlt : vi < frames.length) (h : frames.getD vi none = some e)
    (hnd : (frames.filterMap id).Nodup) (hp : p ∉ pagesOf frames) :
    ((frames.set vi (some p)).filterMap id).Nodup := by
  rw [filterMap_set_some p hlt]
  have hsplit := pagesOf_split_some hlt h
  have hnd' := hnd
  rw [hsplit] at hnd'
  have hperm1 : List.Perm
      ((frames.take vi).filterMap id ++ e :: (frames.drop (vi + 1)).filterMap id)
      (e :: ((frames.take vi).filterMap id ++ (frames.drop (vi + 1)).filterMap id)) :=
    List.perm_middle
  have hndc := hperm1.nodup_iff.mp hnd'
  have hndrest := (List.nodup_cons.mp hndc).2
  have hperm2 : List.Perm
      ((frames.take vi).filterMap id ++ p :: (frames.drop (vi + 1)).filterMap id)
      (p :: ((frames.take vi).filterMap id ++ (frames.drop (vi + 1)).filterMap id)) :=
    List.perm_middle
  rw [hperm2.nodup_iff]
  refine List.Nodup.cons ?_ hndrest
  intro hmem
  apply hp
  rw [mem_pagesOf]
  have hx : p ∈ frames.filterMap id := by
    rw [hsplit]
    rcases List.mem_append.mp hmem with hm | hm
    · exact List.mem_append.mpr (Or.inl hm)
    · exact List.mem_append.mpr (Or.inr (List.mem_cons_of_mem e hm))
  rcases List.mem_filterMap.mp hx with ⟨o, ho, hop⟩
  simp only [id] at hop
  rw [hop] at ho
  exact ho

theorem mem_pagesOf_of_getD {frames : List (Option ℕ)} {vi : ℕ} {e : ℕ}
    (hlt : vi < frames.length) (h : frames.getD vi none = some e) :
    e ∈ pagesOf frames := by
  rw [mem_pagesOf, ← h]
  exact getD_mem hlt

-- ---------- Engine fault-count bounds ----------

theorem fifoGo_ge_OPTcost (c : ℕ) (hc : 1 ≤ c) :
    ∀ (refs : List ℕ) (frames : List (Option ℕ)) (pointer hits faults i : ℕ),
      frames.length = c → (frames.filterMap id).Nodup → pointer < c →
      OPTcost c (pagesOf frames) refs + faults ≤
        (fifoGo c frames pointer hits faults i refs).2.faults := by
  intro refs
  induction refs with
  | nil =>
    intro frames pointer hits faults i _ _ _
    simp [fifoGo, OPTcost_nil]
  | cons p rest ih =>
    intro frames pointer hits faults i hlen hnd hptr
    cases hHit : frames.findIdx? (· = some p) with
    | some k =>
      have hk := findIdx?_some_getD hHit
      have hmem : some p ∈ frames := by
        rw [← hk.2.1]; exact getD_mem hk.1
      have hpp : p ∈ pagesOf frames := mem_pagesOf.mpr hmem
      simp [fifoGo, fifoStep, makeStep, hHit]
      rw [OPTcost_hit rest hpp]
      exact ih frames pointer (hits + 1) faults (i + 1) hlen hnd hptr
    | none =>
      have hnotmem : some p ∉ frames := findIdx?_eq_none_not_mem.mp hHit
      have hpp : p ∉ pagesOf frames := fun h => hnotmem (mem_pagesOf.mp h)
      cases hEmpty : frames.findIdx? (· = (none : Option ℕ)) with
      | some ei =>
        have he := findIdx?_some_getD hEmpty
        have hnone : none ∈ frames := by
          rw [← he.2.1]; exact getD_mem he.1
        have hcard : (pagesOf frames).card < c := (card_pagesOf_lt_iff hlen hnd).mpr hnone
        simp [fifoGo, fifoStep, makeStep, hHit, hEmpty]
        rw [OPTcost_fill rest hpp hcard]
        have hlen' : (frames.set ei (some p)).length = c := by
          rw [List.length_set]; exact hlen
        have hnd' := nodup_set_of_none he.1 he.2.1 hnd hpp
        have hpages' := pagesOf_set_of_none he.1 he.2.1 (p := p)
        have := ih (frames.set ei (some p)) pointer hits (faults + 1) (i + 1)
          hlen' hnd' hptr
        rw [hpages'] at this
        omega
      | none =>
        have hfull : none ∉ frames := findIdx?_eq_none_not_mem.mp hEmpty
        have hcard : ¬ (pagesOf frames).card < c := by
          rw [card_pagesOf_lt_iff hlen hnd]; exact hfull
        have hptrlen : pointer < frames.length := by omega
        cases hv : frames.getD pointer none with
        | none =>
          exfalso
          apply hfull
          rw [← hv]
          exact getD_mem hptrlen
        | some e =>
          have he : e ∈ pagesOf frames := mem_pagesOf_of_getD hptrlen hv
          have hOPT := OPTcost_evict_le rest hpp hcard he
          simp [fifoGo, fifoStep, makeStep, hHit, hEmpty]
          have hlen' : (frames.set pointer (some p)).length = c := by
            rw [List.length_set]; exact hlen
          have hnd' := nodup_set_of_some hptrlen hv hnd hpp
          have hpages' := pagesOf_set_of_some (p := p) hptrlen hv hnd
          have hptr' : (pointer + 1) % c < c := Nat.mod_lt _ (by omega)
          have := ih (frames.set pointer (some p)) ((pointer + 1) % c) hits
            (faults + 1) (i + 1) hlen' hnd' hptr'
          rw [hpages'] at this
          omega

-- ---------- Victim-scan characterizations ----------

theorem lruScan_nil (frames : List (Option ℕ)) (lastUsed : List (ℕ × ℕ))
    (fallback : WithBot ℕ) (acc : ℤ × Option ℕ × WithTop (WithBot ℕ)) :
    lruScan frames lastUsed fallback [] acc = acc := rfl

theorem lruScan_cons (frames : List (Option ℕ)) (lastUsed : List (ℕ × ℕ))
    (fallback : WithBot ℕ) (fi : ℕ) (fis : List ℕ) (vi : ℤ) (vp : Option ℕ)
    (m : WithTop (WithBot ℕ)) :
    lruScan frames lastUsed fallback (fi :: fis) (vi, vp, m) =
      if ((lruScore frames lastUsed fallback fi : WithBot ℕ) : WithTop (WithBot ℕ)) < m then
        lruScan frames lastUsed fallback fis ((fi : ℤ), frames.getD fi none,
          ((lruScore frames lastUsed fallback fi : WithBot ℕ) : WithTop (WithBot ℕ)))
      else lruScan frames lastUsed fallback fis (vi, vp, m) := rfl

/-- Full characterization of the LRU victim scan over slots `s, …, s+n-1`:
the final tracker is the running minimum, and if it improved on the initial
accumulator it names the first slot attaining the minimum. -/
theorem lruScan_spec (frames : List (Option ℕ)) (lastUsed : List (ℕ × ℕ))
    (fallback : WithBot ℕ) :
    ∀ (n s : ℕ) (vi : ℤ) (vp : Option ℕ) (m : WithTop (WithBot ℕ)),
      (lruScan frames lastUsed fallback (List.range' s n) (vi, vp, m)).2.2 ≤ m ∧
      (∀ fi, s ≤ fi → fi < s + n →
        (lruScan frames lastUsed fallback (List.range' s n) (vi, vp, m)).2.2 ≤
          ((lruScore frames lastUsed fallback fi : WithBot ℕ) : WithTop (WithBot ℕ))) ∧
      ((lruScan frames lastUsed fallback (List.range' s n) (vi, vp, m)) = (vi, vp, m) ∧
        (∀ fi, s ≤ fi → fi < s + n →
          ¬ ((lruScore frames lastUsed fallback fi : WithBot ℕ) : WithTop (WithBot ℕ)) < m) ∨
       (∃ fi, s ≤ fi ∧ fi < s + n ∧
         (lruScan frames lastUsed fallback (List.range' s n) (vi, vp, m)).1 = (fi : ℤ) ∧
         (lruScan frames lastUsed fallback (List.range' s n) (vi, vp, m)).2.1 =
           frames.getD fi none ∧
         (lruScan frames lastUsed fallback (List.range' s n) (vi, vp, m)).2.2 =
           ((lruScore frames lastUsed fallback fi : WithBot ℕ) : WithTop (WithBot ℕ)) ∧
         ((lruScore frames lastUsed fallback fi : WithBot ℕ) : WithTop (WithBot ℕ)) < m ∧
         ∀ fj, s ≤ fj → fj < fi →
           (lruScan frames lastUsed fallback (List.range' s n) (vi, vp, m)).2.2 <
             ((lruScore frames lastUsed fallback fj : WithBot ℕ) : WithTop (WithBot ℕ)))) := by
  intro n
  induction n with
  | zero =>
    intro s vi vp m
    refine ⟨le_refl _, ?_, Or.inl ⟨rfl, ?_⟩⟩
    · intro fi h1 h2; omega
    · intro fi h1 h2; omega
  | succ n ih =>
    intro s vi vp m
    rw [List.range'_succ]
    by_cases hlt :
        ((lruScore frames lastUsed fallback s : WithBot ℕ) : WithTop (WithBot ℕ)) < m
    · rw [lruScan_cons, if_pos hlt]
      obtain ⟨ih1, ih2, ih3⟩ := ih (s + 1) (s : ℤ) (frames.getD s none)
        ((lruScore frames lastUsed fallback s : WithBot ℕ) : WithTop (WithBot ℕ))
      refine ⟨(lt_of_le_of_lt ih1 hlt).le, ?_, ?_⟩
      · intro fi h1 h2
        rcases eq_or_lt_of_le h1 with rfl | h1'
        · exact ih1
        · exact ih2 fi h1' (by omega)
      · rcases ih3 with ⟨hEq, hAll⟩ | ⟨fi, hfi1, hfi2, hr1, hr2, hr3, hr4, hprev⟩
        · refine Or.inr ⟨s, le_refl s, by omega, ?_, ?_, ?_, hlt, ?_⟩
          · rw [hEq]
          · rw [hEq]
          · rw [hEq]
          · intro fj h1 h2; omega
        · refine Or.inr ⟨fi, by omega, by omega, hr1, hr2, hr3, lt_trans hr4 hlt, ?_⟩
          intro fj h1 h2
          rcases eq_or_lt_of_le h1 with rfl | h1'
          · rw [hr3]; exact hr4
          · exact hprev fj h1' h2
    · rw [lruScan_cons, if_neg hlt]
      obtain ⟨ih1, ih2, ih3⟩ := ih (s + 1) vi vp m
      refine ⟨ih1, ?_, ?_⟩
      · intro fi h1 h2
        rcases eq_or_lt_of_le h1 with rfl | h1'
        · exact le_trans ih1 (not_lt.mp hlt)
        · exact ih2 fi h1' (by omega)
      · rcases ih3 with ⟨hEq, hAll⟩ | ⟨fi, hfi1, hfi2, hr1, hr2, hr3, hr4, hprev⟩
        · refine Or.inl ⟨hEq, ?_⟩
          intro fi h1 h2
          rcases eq_or_lt_of_le h1 with rfl | h1'
          · exact hlt
          · exact hAll fi h1' (by omega)
        · refine Or.inr ⟨fi, by omega, by omega, hr1, hr2, hr3, hr4, ?_⟩
          intro fj h1 h2
          rcases eq_or_lt_of_le h1 with rfl | h1'
          · rw [hr3]
            exact lt_of_lt_of_le hr4 (not_lt.mp hlt)
          · exact hprev fj h1' h2

theorem optScan_nil (rest : List ℕ) (i : ℕ) (frames : List (Option ℕ))
    (acc : ℕ × Option ℕ × WithBot (WithTop ℕ)) :
    optScan rest i frames [] acc = acc := rfl

theorem optScan_cons (rest : List ℕ) (i : ℕ) (frames : List (Option ℕ)) (fi : ℕ)
    (fis : List ℕ) (vi : ℕ) (vp : Option ℕ) (far : WithBot (WithTop ℕ)) :
    optScan rest i frames (fi :: fis) (vi, vp, far) =
      if far < ((optScore rest i frames fi : WithTop ℕ) : WithBot (WithTop ℕ)) then
        optScan rest i frames fis (fi, frames.getD fi none,
          ((optScore rest i frames fi : WithTop ℕ) : WithBot (WithTop ℕ)))
      else optScan rest i frames fis (vi, vp, far) := rfl

/-- Full characterization of the OPT victim scan over slots `s, …, s+n-1`:
the final tracker is the running maximum, and if it improved on the initial
accumulator it names the first slot attaining the maximum. -/
theorem optScan_spec (rest : List ℕ) (i : ℕ) (frames : List (Option ℕ)) :
    ∀ (n s : ℕ) (vi : ℕ) (vp : Option ℕ) (far : WithBot (WithTop ℕ)),
      far ≤ (optScan rest i frames (List.range' s n) (vi, vp, far)).2.2 ∧
      (∀ fi, s ≤ fi → fi < s + n →
        ((optScore rest i frames fi : WithTop ℕ) : WithBot (WithTop ℕ)) ≤
          (optScan rest i frames (List.range' s n) (vi, vp, far)).2.2) ∧
      ((optScan rest i frames (List.range' s n) (vi, vp, far)) = (vi, vp, far) ∧
        (∀ fi, s ≤ fi → fi < s + n →
          ¬ far < ((optScore rest i frames fi : WithTop ℕ) : WithBot (WithTop ℕ))) ∨
       (∃ fi, s ≤ fi ∧ fi < s + n ∧
         (optScan rest i frames (List.range' s n) (vi, vp, far)).1 = fi ∧
         (optScan rest i frames (List.range' s n) (vi, vp, far)).2.1 =
           frames.getD fi none ∧
         (optScan rest i frames (List.range' s n) (vi, vp, far)).2.2 =
           ((optScore rest i frames fi : WithTop ℕ) : WithBot (WithTop ℕ)) ∧
         far < ((optScore rest i frames fi : WithTop ℕ) : WithBot (WithTop ℕ)) ∧
         ∀ fj, s ≤ fj → fj < fi →
           ((optScore rest i frames fj : WithTop ℕ) : WithBot (WithTop ℕ)) <
             (optScan rest i frames (List.range' s n) (vi, vp, far)).2.2)) := by
  intro n
  induction n with
  | zero =>
    intro s vi vp far
    refine ⟨le_refl _, ?_, Or.inl ⟨rfl, ?_⟩⟩
    · intro fi h1 h2; omega
    · intro fi h1 h2; omega
  | succ n ih =>
    intro s vi vp far
    rw [List.range'_succ]
    by_cases hlt :
        far < ((optScore rest i frames s : WithTop ℕ) : WithBot (WithTop ℕ))
    · rw [optScan_cons, if_pos hlt]
      obtain ⟨ih1, ih2, ih3⟩ := ih (s + 1) s (frames.getD s none)
        ((optScore rest i frames s : WithTop ℕ) : WithBot (WithTop ℕ))
      refine ⟨(lt_of_lt_of_le hlt ih1).le, ?_, ?_⟩
      · intro fi h1 h2
        rcases eq_or_lt_of_le h1 with rfl | h1'
        · exact ih1
        · exact ih2 fi h1' (by omega)
      · rcases ih3 with ⟨hEq, hAll⟩ | ⟨fi, hfi1, hfi2, hr1, hr2, hr3, hr4, hprev⟩
        · refine Or.inr ⟨s, le_refl s, by omega, ?_, ?_, ?_, hlt, ?_⟩
          · rw [hEq]
          · rw [hEq]
          · rw [hEq]
          · intro fj h1 h2; omega
        · refine Or.inr ⟨fi, by omega, by omega, hr1, hr2, hr3, lt_trans hlt hr4, ?_⟩
          intro fj h1 h2
          rcases eq_or_lt_of_le h1 with rfl | h1'
          · rw [hr3]; exact hr4
          · exact hprev fj h1' h2
    · rw [optScan_cons, if_neg hlt]
      obtain ⟨ih1, ih2, ih3⟩ := ih (s + 1) vi vp far
      refine ⟨ih1, ?_, ?_⟩
      · intro fi h1 h2
        rcases eq_or_lt_of_le h1 with rfl | h1'
        · exact le_trans (not_lt.mp hlt) ih1
        · exact ih2 fi h1' (by omega)
      · rcases ih3 with ⟨hEq, hAll⟩ | ⟨fi, hfi1, hfi2, hr1, hr2, hr3, hr4, hprev⟩
        · refine Or.inl ⟨hEq, ?_⟩
          intro fi h1 h2
          rcases eq_or_lt_of_le h1 with rfl | h1'
          · exact hlt
          · exact hAll fi h1' (by omega)
        · refine Or.inr ⟨fi, by omega, by omega, hr1, hr2, hr3, hr4, ?_⟩
          intro fj h1 h2
          rcases eq_or_lt_of_le h1 with rfl | h1'
          · rw [hr3]
            exact lt_of_le_of_lt (not_lt.mp hlt) hr4
          · exact hprev fj h1' h2

/-- On a full-table fault the LRU scan picks the first slot with minimal score. -/
theorem lruScan_victim (frames : List (Option ℕ)) (lastUsed : List (ℕ × ℕ))
    (fallback : WithBot ℕ) (c : ℕ) (hc : 1 ≤ c) :
    ∃ fi, fi < c ∧
      (lruScan frames lastUsed fallback (List.range c) ((-1 : ℤ), none, ⊤)).1 = (fi : ℤ) ∧
      (lruScan frames lastUsed fallback (List.range c) ((-1 : ℤ), none, ⊤)).2.1 =
        frames.getD fi none ∧
      (lruScan frames lastUsed fallback (List.range c) ((-1 : ℤ), none, ⊤)).2.2 =
        ((lruScore frames lastUsed fallback fi : WithBot ℕ) : WithTop (WithBot ℕ)) ∧
      (∀ fj, fj < c →
        lruScore frames lastUsed fallback fi ≤ lruScore frames lastUsed fallback fj) ∧
      (∀ fj, fj < fi →
        lruScore frames lastUsed fallback fi < lruScore frames lastUsed fallback fj) := by
  have hspec := lruScan_spec frames lastUsed fallback c 0 (-1 : ℤ) none ⊤
  rw [← List.range_eq_range'] at hspec
  obtain ⟨h1, h2, h3⟩ := hspec
  rcases h3 with ⟨hEq, hAll⟩ | ⟨fi, hfi1, hfi2, hr1, hr2, hr3, hr4, hprev⟩
  · exfalso
    exact hAll 0 (le_refl 0) (by omega) (WithTop.coe_lt_top _)
  · refine ⟨fi, by omega, hr1, hr2, hr3, ?_, ?_⟩
    · intro fj hfj
      have := h2 fj (zero_le _) (by omega)
      rw [hr3] at this
      exact_mod_cast this
    · intro fj hfj
      have := hprev fj (zero_le _) hfj
      rw [hr3] at this
      exact_mod_cast this

/-- On a full-table fault the OPT scan picks the first slot with maximal score. -/
theorem optScan_victim (rest : List ℕ) (i : ℕ) (frames : List (Option ℕ))
    (c : ℕ) (hc : 1 ≤ c) :
    ∃ fi, fi < c ∧
      (optScan rest i frames (List.range c) (0, frames.getD 0 none, ⊥)).1 = fi ∧
      (optScan rest i frames (List.range c) (0, frames.getD 0 none, ⊥)).2.1 =
        frames.getD fi none ∧
      (optScan rest i frames (List.range c) (0, frames.getD 0 none, ⊥)).2.2 =
        ((optScore rest i frames fi : WithTop ℕ) : WithBot (WithTop ℕ)) ∧
      (∀ fj, fj < c → optScore rest i frames fj ≤ optScore rest i frames fi) ∧
      (∀ fj, fj < fi → optScore rest i frames fj < optScore rest i frames fi) := by
  have hspec := optScan_spec rest i frames c 0 0 (frames.getD 0 none) ⊥
  rw [← List.range_eq_range'] at hspec
  obtain ⟨h1, h2, h3⟩ := hspec
  rcases h3 with ⟨hEq, hAll⟩ | ⟨fi, hfi1, hfi2, hr1, hr2, hr3, hr4, hprev⟩
  · exfalso
    exact hAll 0 (le_refl 0) (by omega) (WithBot.bot_lt_coe _)
  · refine ⟨fi, by omega, hr1, hr2, hr3, ?_, ?_⟩
    · intro fj hfj
      have := h2 fj (zero_le _) (by omega)
      rw [hr3] at this
      exact_mod_cast this
    · intro fj hfj
      have := hprev fj (zero_le _) hfj
      rw [hr3] at this
      exact_mod_cast this

theorem mem_frames_getD {frames : List (Option ℕ)} {e : ℕ} (h : some e ∈ frames) :
    ∃ j, j < frames.length ∧ frames.getD j none = some e := by
  obtain ⟨n, hn, hval⟩ := List.getElem_of_mem h
  exact ⟨n, hn, by rw [List.getD_eq_getElem frames none hn, hval]⟩

theorem card_pagesOf_of_full {frames : List (Option ℕ)} {c : ℕ}
    (hlen : frames.length = c) (hnd : (frames.filterMap id).Nodup)
    (hfull : none ∉ frames) : (pagesOf frames).card = c := by
  have h1 := card_pagesOf_of_nodup hnd
  have h2 := length_filterMap_id_le frames
  have h3 : ¬ (frames.filterMap id).length < frames.length := by
    rw [length_filterMap_id_lt_iff frames]
    exact hfull
  omega

theorem lruGo_ge_OPTcost (c : ℕ) (hc : 1 ≤ c) (fallback : WithBot ℕ) :
    ∀ (refs : List ℕ) (frames : List (Option ℕ)) (lastUsed : List (ℕ × ℕ))
      (hits faults i : ℕ),
      frames.length = c → (frames.filterMap id).Nodup →
      OPTcost c (pagesOf frames) refs + faults ≤
        (lruGo fallback c frames lastUsed hits faults i refs).2.faults := by
  intro refs
  induction refs with
  | nil =>
    intro frames lastUsed hits faults i _ _
    simp [lruGo, OPTcost_nil]
  | cons p rest ih =>
    intro frames lastUsed hits faults i hlen hnd
    cases hHit : frames.findIdx? (· = some p) with
    | some k =>
      have hk := findIdx?_some_getD hHit
      have hmem : some p ∈ frames := by
        rw [← hk.2.1]; exact getD_mem hk.1
      have hpp : p ∈ pagesOf frames := mem_pagesOf.mpr hmem
      simp [lruGo, lruStep, makeStep, hHit]
      rw [OPTcost_hit rest hpp]
      exact ih frames (mapSet lastUsed p i) (hits + 1) faults (i + 1) hlen hnd
    | none =>
      have hnotmem : some p ∉ frames := findIdx?_eq_none_not_mem.mp hHit
      have hpp : p ∉ pagesOf frames := fun h => hnotmem (mem_pagesOf.mp h)
      cases hEmpty : frames.findIdx? (· = (none : Option ℕ)) with
      | some ei =>
        have he := findIdx?_some_getD hEmpty
        have hnone : none ∈ frames := by
          rw [← he.2.1]; exact getD_mem he.1
        have hcard : (pagesOf frames).card < c := (card_pagesOf_lt_iff hlen hnd).mpr hnone
        simp [lruGo, lruStep, makeStep, hHit, hEmpty]
        rw [OPTcost_fill rest hpp hcard]
        have hlen' : (frames.set ei (some p)).length = c := by
          rw [List.length_set]; exact hlen
        have hnd' := nodup_set_of_none he.1 he.2.1 hnd hpp
        have hpages' := pagesOf_set_of_none he.1 he.2.1 (p := p)
        have := ih (frames.set ei (some p)) (mapSet lastUsed p i) hits (faults + 1)
          (i + 1) hlen' hnd'
        rw [hpages'] at this
        omega
      | none =>
        have hfull : none ∉ frames := findIdx?_eq_none_not_mem.mp hEmpty
        have hcard : ¬ (pagesOf frames).card < c := by
          rw [card_pagesOf_lt_iff hlen hnd]; exact hfull
        obtain ⟨fi, hfic, hr1, hr2, hr3, _, _⟩ :=
          lruScan_victim frames lastUsed fallback c hc
        have hfilen : fi < frames.length := by omega
        cases hv : frames.getD fi none with
        | none =>
          exfalso
          apply hfull
          rw [← hv]
          exact getD_mem hfilen
        | some e =>
          have he : e ∈ pagesOf frames := mem_pagesOf_of_getD hfilen hv
          have hOPT := OPTcost_evict_le rest hpp hcard he
          simp [lruGo, lruStep, makeStep, hHit, hEmpty]
          rw [hr1]
          simp only [Int.toNat_natCast]
          have hlen' : (frames.set fi (some p)).length = c := by
            rw [List.length_set]; exact hlen
          have hnd' := nodup_set_of_some hfilen hv hnd hpp
          have hpages' := pagesOf_set_of_some (p := p) hfilen hv hnd
          have := ih (frames.set fi (some p))
            (mapSet
              (match (lruScan frames lastUsed fallback (List.range c)
                  ((-1 : ℤ), none, ⊤)).2.1 with
               | some vp => mapDelete lastUsed vp
               | none => lastUsed) p i)
            hits (faults + 1) (i + 1) hlen' hnd'
          rw [hpages'] at this
          omega

theorem withTop_add_le_add_iff {x y : WithTop ℕ} (k : ℕ) :
    x + ((k : ℕ) : WithTop ℕ) ≤ y + ((k : ℕ) : WithTop ℕ) ↔ x ≤ y :=
  WithTop.add_le_add_iff_right (WithTop.coe_ne_top)

/-- The OPT engine is bounded above by the offline optimum: its victim always
has the farthest next use, so by the Belady exchange its branch of the
dynamic program is the minimizing one. -/
theorem optGo_le_OPTcost (c : ℕ) (hc : 1 ≤ c) :
    ∀ (refs : List ℕ) (frames : List (Option ℕ)) (hits faults i : ℕ),
      frames.length = c → (frames.filterMap id).Nodup →
      (optGo c frames hits faults i refs).2.faults ≤
        OPTcost c (pagesOf frames) refs + faults := by
  intro refs
  induction refs with
  | nil =>
    intro frames hits faults i _ _
    simp [optGo, OPTcost_nil]
  | cons p rest ih =>
    intro frames hits faults i hlen hnd
    cases hHit : frames.findIdx? (· = some p) with
    | some k =>
      have hk := findIdx?_some_getD hHit
      have hmem : some p ∈ frames := by
        rw [← hk.2.1]; exact getD_mem hk.1
      have hpp : p ∈ pagesOf frames := mem_pagesOf.mpr hmem
      simp [optGo, optStep, makeStep, hHit]
      rw [OPTcost_hit rest hpp]
      exact ih frames (hits + 1) faults (i + 1) hlen hnd
    | none =>
      have hnotmem : some p ∉ frames := findIdx?_eq_none_not_mem.mp hHit
      have hpp : p ∉ pagesOf frames := fun h => hnotmem (mem_pagesOf.mp h)
      cases hEmpty : frames.findIdx? (· = (none : Option ℕ)) with
      | some ei =>
        have he := findIdx?_some_getD hEmpty
        have hnone : none ∈ frames := by
          rw [← he.2.1]; exact getD_mem he.1
        have hcard : (pagesOf frames).card < c := (card_pagesOf_lt_iff hlen hnd).mpr hnone
        simp [optGo, optStep, makeStep, hHit, hEmpty]
        rw [OPTcost_fill rest hpp hcard]
        have hlen' : (frames.set ei (some p)).length = c := by
          rw [List.length_set]; exact hlen
        have hnd' := nodup_set_of_none he.1 he.2.1 hnd hpp
        have hpages' := pagesOf_set_of_none he.1 he.2.1 (p := p)
        have := ih (frames.set ei (some p)) hits (faults + 1) (i + 1) hlen' hnd'
        rw [hpages'] at this
        omega
      | none =>
        have hfull : none ∉ frames := findIdx?_eq_none_not_mem.mp hEmpty
        have hcardlt : ¬ (pagesOf frames).card < c := by
          rw [card_pagesOf_lt_iff hlen hnd]; exact hfull
        have hcardC : (pagesOf frames).card = c := card_pagesOf_of_full hlen hnd hfull
        obtain ⟨fi, hfic, hr1, hr2, hr3, hmax, _⟩ := optScan_victim rest i frames c hc
        have hfilen : fi < frames.length := by omega
        cases hv : frames.getD fi none with
        | none =>
          exfalso
          apply hfull
          rw [← hv]
          exact getD_mem hfilen
        | some b =>
          have hbmem : b ∈ pagesOf frames := mem_pagesOf_of_getD hfilen hv
          -- every resident page is next used no later than the victim
          have hfarthest : ∀ e ∈ pagesOf frames, nextUse e rest ≤ nextUse b rest := by
            intro e hemem
            obtain ⟨j, hj, hjv⟩ := mem_frames_getD (mem_pagesOf.mp hemem)
            have hjc : j < c := by omega
            have := hmax j hjc
            have hsj : optScore rest i frames j =
                nextUse e rest + ((i + 1 : ℕ) : WithTop ℕ) := by
              unfold optScore; rw [hjv]
            have hsfi : optScore rest i frames fi =
                nextUse b rest + ((i + 1 : ℕ) : WithTop ℕ) := by
              unfold optScore; rw [hv]
            rw [hsj, hsfi] at this
            exact (withTop_add_le_add_iff (i + 1)).mp this
          obtain ⟨e, heC, hEq⟩ := OPTcost_evict_witness (C := pagesOf frames) rest hpp
            hcardlt ⟨b, hbmem⟩
          simp [optGo, optStep, makeStep, hHit, hEmpty]
          simp only [List.getD_eq_getElem?_getD] at hr1
          rw [hr1]
          have hlen' : (frames.set fi (some p)).length = c := by
            rw [List.length_set]; exact hlen
          have hnd' := nodup_set_of_some hfilen hv hnd hpp
          have hpages' := pagesOf_set_of_some (p := p) hfilen hv hnd
          have hih := ih (frames.set fi (some p)) hits (faults + 1) (i + 1) hlen' hnd'
          rw [hpages'] at hih
          -- Belady exchange: evicting the farthest-used b is optimal
          have hkey : OPTcost c (insert p ((pagesOf frames).erase b)) rest ≤
              OPTcost c (insert p ((pagesOf frames).erase e)) rest := by
            rcases eq_or_ne e b with rfl | heb
            · exact le_refl _
            · have hbC := hbmem
              set C := pagesOf frames with hCdef
              have hDdef : (C.erase b).erase e = (C.erase e).erase b := by
                rw [Finset.erase_right_comm]
              have hA : insert p (C.erase b) =
                  insert e (insert p ((C.erase b).erase e)) := by
                rw [Finset.Insert.comm, Finset.insert_erase
                  (Finset.mem_erase.mpr ⟨heb, heC⟩)]
              have hB : insert p (C.erase e) =
                  insert b (insert p ((C.erase b).erase e)) := by
                rw [Finset.Insert.comm, hDdef, Finset.insert_erase
                  (Finset.mem_erase.mpr ⟨Ne.symm heb, hbC⟩)]
              have hpe : p ∉ (C.erase b).erase e := fun h =>
                hpp (Finset.mem_of_mem_erase (Finset.mem_of_mem_erase h))
              have heT : e ∉ insert p ((C.erase b).erase e) := by
                simp only [Finset.mem_insert]; push_neg
                exact ⟨fun h => hpp (h ▸ heC), Finset.not_mem_erase e _⟩
              have hbT : b ∉ insert p ((C.erase b).erase e) := by
                simp only [Finset.mem_insert]; push_neg
                refine ⟨fun h => hpp (h ▸ hbC), fun h => ?_⟩
                exact Finset.not_mem_erase b (C.erase e) (hDdef ▸ h)
              have hcT : (insert e (insert p ((C.erase b).erase e))).card ≤ c := by
                rw [← hA]
                have hpb : p ∉ C.erase b := fun h => hpp (Finset.mem_of_mem_erase h)
                rw [Finset.card_insert_of_not_mem hpb, Finset.card_erase_of_mem hbC]
                omega
              rw [hA, hB]
              exact OPTcost_farther c rest (insert p ((C.erase b).erase e)) e b
                heT hbT hcT (hfarthest e heC)
          omega

-- ---------- CLOCK scan lemmas ----------

theorem getD_set_eq {α : Type} (l : List α) (k : ℕ) (v d : α) (hk : k < l.length) :
    (l.set k v).getD k d = v := by
  rw [List.getD_eq_getElem?_getD, List.getElem?_set_self hk]
  rfl

theorem getD_set_ne {α : Type} (l : List α) (k j : ℕ) (v d : α) (h : k ≠ j) :
    (l.set k v).getD j d = l.getD j d := by
  rw [List.getD_eq_getElem?_getD, List.getElem?_set_ne h, ← List.getD_eq_getElem?_getD]

theorem clockScan_unfold (framesCount p : ℕ) (frames : List (Option ℕ))
    (refBits : List ℕ) (hand scans fuel : ℕ) :
    clockScan framesCount p frames refBits hand scans (fuel + 1) =
      if refBits.getD hand 1 = 0 then
        .ok { frames := frames.set hand (some p)
              refBits := refBits.set hand 1
              hand := (hand + 1) % framesCount
              replaced := frames.getD hand none
              replacedIndex := hand
              scans := scans + 1 }
      else
        if framesCount * 5 < scans + 1 then
          .error "Clock algorithm safety break (unexpected loop)."
        else
          clockScan framesCount p frames (refBits.set hand 0)
            ((hand + 1) % framesCount) (scans + 1) fuel := rfl

theorem clockScan_ok_spec (c p : ℕ) (hc : 1 ≤ c) :
    ∀ (fuel scans : ℕ) (frames : List (Option ℕ)) (refBits : List ℕ) (hand : ℕ)
      (r : ClockScanResult),
      refBits.length = c → hand < c →
      clockScan c p frames refBits hand scans fuel = .ok r →
      r.replacedIndex < c ∧ r.frames = frames.set r.replacedIndex (some p) ∧
      r.replaced = frames.getD r.replacedIndex none ∧
      r.hand = (r.replacedIndex + 1) % c ∧ r.refBits.length = c ∧ r.hand < c ∧
      scans < r.scans := by
  intro fuel
  induction fuel with
  | zero =>
    intro scans frames refBits hand r hlen hhand hok
    exact Except.noConfusion hok
  | succ fuel ih =>
    intro scans frames refBits hand r hlen hhand hok
    rw [clockScan_unfold] at hok
    by_cases hbit : refBits.getD hand 1 = 0
    · rw [if_pos hbit] at hok
      injection hok with h
      subst h
      refine ⟨hhand, rfl, rfl, rfl, ?_, Nat.mod_lt _ (by omega), Nat.lt_succ_self scans⟩
      rw [List.length_set]; exact hlen
    · rw [if_neg hbit] at hok
      by_cases hguard : c * 5 < scans + 1
      · rw [if_pos hguard] at hok
        exact Except.noConfusion hok
      · rw [if_neg hguard] at hok
        have := ih (scans + 1) frames (refBits.set hand 0) ((hand + 1) % c) r
          (by rw [List.length_set]; exact hlen)
          (Nat.mod_lt _ (by omega)) hok
        exact ⟨this.1, this.2.1, this.2.2.1, this.2.2.2.1, this.2.2.2.2.1,
          this.2.2.2.2.2.1, by omega⟩

theorem clockScan_zero_found (c p : ℕ) (hc : 1 ≤ c) :
    ∀ (d scans fuel : ℕ) (frames : List (Option ℕ)) (refBits : List ℕ) (hand : ℕ),
      hand < c → refBits.length = c → d < c →
      refBits.getD ((hand + d) % c) 1 = 0 →
      scans + d + 1 ≤ c * 5 → d + 1 ≤ fuel →
      ∃ r, clockScan c p frames refBits hand scans fuel = .ok r ∧
        r.scans ≤ scans + d + 1 := by
  intro d
  induction d with
  | zero =>
    intro scans fuel frames refBits hand hhand hlen _ hbit _ hfuel
    obtain ⟨fuel', rfl⟩ : ∃ fuel', fuel = fuel' + 1 :=
      ⟨fuel - 1, by omega⟩
    rw [Nat.add_zero, Nat.mod_eq_of_lt hhand] at hbit
    refine ⟨_, by rw [clockScan_unfold, if_pos hbit], ?_⟩
    show scans + 1 ≤ scans + 0 + 1
    omega
  | succ d ih =>
    intro scans fuel frames refBits hand hhand hlen hd hbit hbound hfuel
    obtain ⟨fuel', rfl⟩ : ∃ fuel', fuel = fuel' + 1 :=
      ⟨fuel - 1, by omega⟩
    by_cases h0 : refBits.getD hand 1 = 0
    · refine ⟨_, by rw [clockScan_unfold, if_pos h0], ?_⟩
      show scans + 1 ≤ scans + (d + 1) + 1
      omega
    · -- the zero bit is still there, one step closer
      have hbit' : (refBits.set hand 0).getD (((hand + 1) % c + d) % c) 1 = 0 := by
        have hpos : ((hand + 1) % c + d) % c = (hand + (d + 1)) % c := by
          rw [Nat.mod_add_mod]
          ring_nf
        rw [hpos]
        by_cases heq : hand = (hand + (d + 1)) % c
        · rw [← heq]
          exact getD_set_eq refBits hand 0 1 (by omega)
        · rw [getD_set_ne refBits _ _ 0 1 heq]
          exact hbit
      obtain ⟨r, hr, hs⟩ := ih (scans + 1) fuel' frames (refBits.set hand 0)
        ((hand + 1) % c) (Nat.mod_lt _ (by omega))
        (by rw [List.length_set]; exact hlen) (by omega) hbit' (by omega) (by omega)
      refine ⟨r, ?_, by omega⟩
      rw [clockScan_unfold, if_neg h0, if_neg (by omega)]
      exact hr

theorem clockScan_total (c p : ℕ) (hc : 1 ≤ c) (frames : List (Option ℕ))
    (refBits : List ℕ) (hand : ℕ) (hhand : hand < c) (hlen : refBits.length = c) :
    ∃ r, clockScan c p frames refBits hand 0 (c * 5 + 1) = .ok r ∧
      r.scans ≤ 2 * c := by
  by_cases h0 : ∃ d, d < c ∧ refBits.getD ((hand + d) % c) 1 = 0
  · obtain ⟨d, hd, hbit⟩ := h0
    obtain ⟨r, hr, hs⟩ := clockScan_zero_found c p hc d 0 (c * 5 + 1) frames
      refBits hand hhand hlen hd hbit (by omega) (by omega)
    exact ⟨r, hr, by omega⟩
  · push_neg at h0
    have hbit0 : refBits.getD hand 1 ≠ 0 := by
      have := h0 0 (by omega)
      rwa [Nat.add_zero, Nat.mod_eq_of_lt hhand] at this
    have hstep : clockScan c p frames refBits hand 0 (c * 5 + 1) =
        clockScan c p frames (refBits.set hand 0) ((hand + 1) % c) 1 (c * 5) := by
      rw [clockScan_unfold, if_neg hbit0, if_neg (by omega)]
    have hbit' : (refBits.set hand 0).getD (((hand + 1) % c + (c - 1)) % c) 1 = 0 := by
      have hpos : ((hand + 1) % c + (c - 1)) % c = hand := by
        rw [Nat.mod_add_mod]
        have heq : hand + 1 + (c - 1) = hand + c := by omega
        rw [heq, Nat.add_mod_right, Nat.mod_eq_of_lt hhand]
      rw [hpos]
      exact getD_set_eq refBits hand 0 1 (by omega)
    obtain ⟨r, hr, hs⟩ := clockScan_zero_found c p hc (c - 1) 1 (c * 5) frames
      (refBits.set hand 0) ((hand + 1) % c) (Nat.mod_lt _ (by omega))
      (by rw [List.length_set]; exact hlen) (by omega) hbit' (by omega) (by omega)
    exact ⟨r, by rw [hstep]; exact hr, by omega⟩

theorem clockGo_ge_OPTcost (c : ℕ) (hc : 1 ≤ c) :
    ∀ (refs : List ℕ) (frames : List (Option ℕ)) (refBits : List ℕ)
      (hand hits faults i : ℕ) (res : List Step × Summary),
      frames.length = c → (frames.filterMap id).Nodup →
      refBits.length = c → hand < c →
      clockGo c frames refBits hand hits faults i refs = .ok res →
      OPTcost c (pagesOf frames) refs + faults ≤ res.2.faults := by
  intro refs
  induction refs with
  | nil =>
    intro frames refBits hand hits faults i res _ _ _ _ hok
    injection hok with h
    rw [← h]
    simp [OPTcost_nil]
  | cons p rest ih =>
    intro frames refBits hand hits faults i res hlen hnd hblen hhand hok
    cases hHit : frames.findIdx? (· = some p) with
    | some k =>
      have hk := findIdx?_some_getD hHit
      have hmem : some p ∈ frames := by
        rw [← hk.2.1]; exact getD_mem hk.1
      have hpp : p ∈ pagesOf frames := mem_pagesOf.mpr hmem
      simp [clockGo, clockStep, makeStep, hHit] at hok
      cases hrec : clockGo c frames (refBits.set k 1) hand (hits + 1) faults (i + 1) rest with
      | error e => rw [hrec] at hok; cases hok
      | ok rec' =>
        rw [hrec] at hok
        injection hok with h
        rw [← h]
        rw [OPTcost_hit rest hpp]
        exact ih frames (refBits.set k 1) hand (hits + 1) faults (i + 1) rec'
          hlen hnd (by rw [List.length_set]; exact hblen) hhand hrec
    | none =>
      have hnotmem : some p ∉ frames := findIdx?_eq_none_not_mem.mp hHit
      have hpp : p ∉ pagesOf frames := fun h => hnotmem (mem_pagesOf.mp h)
      cases hEmpty : frames.findIdx? (· = (none : Option ℕ)) with
      | some ei =>
        have he := findIdx?_some_getD hEmpty
        have hnone : none ∈ frames := by
          rw [← he.2.1]; exact getD_mem he.1
        have hcard : (pagesOf frames).card < c := (card_pagesOf_lt_iff hlen hnd).mpr hnone
        simp [clockGo, clockStep, makeStep, hHit, hEmpty] at hok
        cases hrec : clockGo c (frames.set ei (some p)) (refBits.set ei 1) hand
            hits (faults + 1) (i + 1) rest with
        | error e => rw [hrec] at hok; cases hok
        | ok rec' =>
          rw [hrec] at hok
          injection hok with h
          rw [← h]
          dsimp only
          rw [OPTcost_fill rest hpp hcard]
          have hlen' : (frames.set ei (some p)).length = c := by
            rw [List.length_set]; exact hlen
          have hnd' := nodup_set_of_none he.1 he.2.1 hnd hpp
          have hpages' := pagesOf_set_of_none he.1 he.2.1 (p := p)
          have := ih (frames.set ei (some p)) (refBits.set ei 1) hand hits
            (faults + 1) (i + 1) rec' hlen' hnd'
            (by rw [List.length_set]; exact hblen) hhand hrec
          rw [hpages'] at this
          omega
      | none =>
        have hfull : none ∉ frames := findIdx?_eq_none_not_mem.mp hEmpty
        have hcard : ¬ (pagesOf frames).card < c := by
          rw [card_pagesOf_lt_iff hlen hnd]; exact hfull
        cases hscan : clockScan c p frames refBits hand 0 (c * 5 + 1) with
        | error e =>
          simp [clockGo, clockStep, makeStep, hHit, hEmpty, hscan] at hok
        | ok r =>
          obtain ⟨hvic, hfr, hrepl, hrh, hrblen, hrhand, _⟩ :=
            clockScan_ok_spec c p hc (c * 5 + 1) 0 frames refBits hand r
              hblen hhand hscan
          have hvilen : r.replacedIndex < frames.length := by omega
          cases hv : frames.getD r.replacedIndex none with
          | none =>
            exfalso
            apply hfull
            rw [← hv]
            exact getD_mem hvilen
          | some e =>
            have he : e ∈ pagesOf frames := mem_pagesOf_of_getD hvilen hv
            have hOPT := OPTcost_evict_le rest hpp hcard he
            simp [clockGo, clockStep, makeStep, hHit, hEmpty, hscan] at hok
            cases hrec : clockGo c r.frames r.refBits r.hand hits (faults + 1)
                (i + 1) rest with
            | error e2 => rw [hrec] at hok; cases hok
            | ok rec' =>
              rw [hrec] at hok
              injection hok with h
              rw [← h]
              dsimp only
              have hlen' : r.frames.length = c := by
                rw [hfr, List.length_set]; exact hlen
              have hnd' : (r.frames.filterMap id).Nodup := by
                rw [hfr]; exact nodup_set_of_some hvilen hv hnd hpp
              have hih := ih r.frames r.refBits r.hand hits (faults + 1) (i + 1)
                rec' hlen' hnd' hrblen hrhand hrec
              have hpages' : pagesOf r.frames = insert p ((pagesOf frames).erase e) := by
                rw [hfr]
                exact pagesOf_set_of_some hvilen hv hnd
              rw [hpages'] at hih
              omega

theorem clockGo_total (c : ℕ) (hc : 1 ≤ c) :
    ∀ (refs : List ℕ) (frames : List (Option ℕ)) (refBits : List ℕ)
      (hand hits faults i : ℕ),
      refBits.length = c → hand < c →
      ∃ res, clockGo c frames refBits hand hits faults i refs = .ok res := by
  intro refs
  induction refs with
  | nil =>
    intro frames refBits hand hits faults i _ _
    exact ⟨([], { hits := hits, faults := faults }), rfl⟩
  | cons p rest ih =>
    intro frames refBits hand hits faults i hblen hhand
    cases hHit : frames.findIdx? (· = some p) with
    | some k =>
      obtain ⟨res, hres⟩ := ih frames (refBits.set k 1) hand (hits + 1) faults (i + 1)
        (by rw [List.length_set]; exact hblen) hhand
      simp [clockGo, clockStep, makeStep, hHit, hres]
    | none =>
      cases hEmpty : frames.findIdx? (· = (none : Option ℕ)) with
      | some ei =>
        obtain ⟨res, hres⟩ := ih (frames.set ei (some p)) (refBits.set ei 1) hand
          hits (faults + 1) (i + 1) (by rw [List.length_set]; exact hblen) hhand
        simp [clockGo, clockStep, makeStep, hHit, hEmpty, hres]
      | none =>
        obtain ⟨r, hscan, _⟩ := clockScan_total c p hc frames refBits hand hhand hblen
        obtain ⟨hvic, hfr, hrepl, hrh, hrblen, hrhand, _⟩ :=
          clockScan_ok_spec c p hc (c * 5 + 1) 0 frames refBits hand r
            hblen hhand hscan
        obtain ⟨res, hres⟩ := ih r.frames r.refBits r.hand hits (faults + 1) (i + 1)
          hrblen hrhand
        simp [clockGo, clockStep, makeStep, hHit, hEmpty, hscan, hres]

-- ---------- Top-level optimality ----------

theorem filterMap_replicate_none (c : ℕ) :
    ((List.replicate c none : List (Option ℕ)).filterMap id) = [] := by
  induction c with
  | zero => rfl
  | succ n ih => simpa [List.replicate_succ] using ih

theorem pagesOf_replicate_none (c : ℕ) : pagesOf (List.replicate c none) = ∅ := by
  unfold pagesOf
  rw [filterMap_replicate_none]
  rfl

theorem nodup_replicate_none (c : ℕ) :
    ((List.replicate c none : List (Option ℕ)).filterMap id).Nodup := by
  rw [filterMap_replicate_none]
  exact List.nodup_nil

theorem simulateOPT_le_cost (c : ℕ) (refs : List ℕ) (hc : 1 ≤ c) :
    (simulateOPT c refs).summary.faults ≤ OPTcost c ∅ refs := by
  have := optGo_le_OPTcost c hc refs (List.replicate c none) 0 0 0
    (List.length_replicate c none) (nodup_replicate_none c)
  rw [pagesOf_replicate_none] at this
  simpa [simulateOPT] using this

theorem cost_le_simulateFIFO (c : ℕ) (refs : List ℕ) (hc : 1 ≤ c) :
    OPTcost c ∅ refs ≤ (simulateFIFO c refs).summary.faults := by
  have := fifoGo_ge_OPTcost c hc refs (List.replicate c none) 0 0 0 0
    (List.length_replicate c none) (nodup_replicate_none c) (by omega)
  rw [pagesOf_replicate_none] at this
  simpa [simulateFIFO] using this

theorem cost_le_simulateLRU (c : ℕ) (refs : List ℕ) (hc : 1 ≤ c) :
    OPTcost c ∅ refs ≤ (simulateLRU c refs).summary.faults := by
  have := lruGo_ge_OPTcost c hc ⊥ refs (List.replicate c none) [] 0 0 0
    (List.length_replicate c none) (nodup_replicate_none c)
  rw [pagesOf_replicate_none] at this
  simpa [simulateLRU, simulateLRUf] using this

theorem cost_le_simulateCLOCK (c : ℕ) (refs : List ℕ) (hc : 1 ≤ c)
    (res : SimResult) (hok : simulateCLOCK c refs = .ok res) :
    OPTcost c ∅ refs ≤ res.summary.faults := by
  unfold simulateCLOCK at hok
  cases hgo : clockGo c (List.replicate c none) (List.replicate c 0) 0 0 0 0 refs with
  | error e => rw [hgo] at hok; cases hok
  | ok r =>
    rw [hgo] at hok
    injection hok with h
    have := clockGo_ge_OPTcost c hc refs (List.replicate c none) (List.replicate c 0)
      0 0 0 0 r (List.length_replicate c none) (nodup_replicate_none c)
      (List.length_replicate c 0) (by omega) hgo
    rw [pagesOf_replicate_none] at this
    rw [← h]
    simpa using this

theorem capNat_pos {cap : ℚ} (hden : cap.den = 1) (h1 : 1 ≤ cap) :
    1 ≤ cap.num.toNat := by
  have hnum : (cap.num : ℚ) = cap := (Rat.den_eq_one_iff cap).mp hden
  have h2 : (1 : ℚ) ≤ (cap.num : ℚ) := by rw [hnum]; exact h1
  have h3 : (1 : ℤ) ≤ cap.num := by exact_mod_cast h2
  omega

/-- C1: For every capacity that is an integer in [1,50] and every non-empty
reference sequence, the fault count in the summary returned by
`simulate("OPT", capacity, references)` is at most the fault count returned by
`simulate` with each of "FIFO", "LRU" and "CLOCK" on the same capacity and
references. -/
theorem opt_fault_count_minimal
    (cap : ℚ) (refs : List ℕ)
    (hden : cap.den = 1) (h1 : 1 ≤ cap) (h50 : cap ≤ 50) (hne : refs ≠ [])
    (ro rf rl rc : SimResult)
    (hOPT : simulate "OPT" cap refs = .ok ro)
    (hFIFO : simulate "FIFO" cap refs = .ok rf)
    (hLRU : simulate "LRU" cap refs = .ok rl)
    (hCLOCK : simulate "CLOCK" cap refs = .ok rc) :
    ro.summary.faults ≤ rf.summary.faults ∧
    ro.summary.faults ≤ rl.summary.faults ∧
    ro.summary.faults ≤ rc.summary.faults := by
  have hcond : cap.den = 1 ∧ 1 ≤ cap ∧ cap ≤ 50 := ⟨hden, h1, h50⟩
  have hc : 1 ≤ cap.num.toNat := capNat_pos hden h1
  have hO : simulate "OPT" cap refs = .ok (simulateOPT cap.num.toNat refs) := by
    unfold simulate
    rw [if_pos hcond, if_neg hne]
    rfl
  have hF : simulate "FIFO" cap refs = .ok (simulateFIFO cap.num.toNat refs) := by
    unfold simulate
    rw [if_pos hcond, if_neg hne]
    rfl
  have hL : simulate "LRU" cap refs = .ok (simulateLRU cap.num.toNat refs) := by
    unfold simulate
    rw [if_pos hcond, if_neg hne]
    rfl
  rw [hO] at hOPT
  rw [hF] at hFIFO
  rw [hL] at hLRU
  injection hOPT with hro
  injection hFIFO with hrf
  injection hLRU with hrl
  have hoptle := simulateOPT_le_cost cap.num.toNat refs hc
  refine ⟨?_, ?_, ?_⟩
  · have := cost_le_simulateFIFO cap.num.toNat refs hc
    rw [← hro, ← hrf]
    omega
  · have := cost_le_simulateLRU cap.num.toNat refs hc
    rw [← hro, ← hrl]
    omega
  · have hC : simulate "CLOCK" cap refs =
        (match simulateCLOCK cap.num.toNat refs with
         | .ok r => .ok r
         | .error m => .error (.internalInvariant m)) := by
      unfold simulate
      rw [if_pos hcond, if_neg hne]
      rfl
    rw [hC] at hCLOCK
    cases hclock : simulateCLOCK cap.num.toNat refs with
    | error e => rw [hclock] at hCLOCK; cases hCLOCK
    | ok r =>
      rw [hclock] at hCLOCK
      injection hCLOCK with hrc
      have := cost_le_simulateCLOCK cap.num.toNat refs hc r hclock
      rw [← hro, ← hrc]
      omega

/-- Witness for the optimality theorem at capacity 2 and
references `[1, 2, 1, 3, 2]`. -/
theorem opt_fault_count_minimal_witness :
    (simulateOPT 2 [1, 2, 1, 3, 2]).summary.faults ≤
      (simulateFIFO 2 [1, 2, 1, 3, 2]).summary.faults ∧
    (simulateOPT 2 [1, 2, 1, 3, 2]).summary.faults ≤
      (simulateLRU 2 [1, 2, 1, 3, 2]).summary.faults := by
  have h := opt_fault_count_minimal 2 [1, 2, 1, 3, 2] (by decide)
    (by norm_num) (by norm_num) (by decide)
    (simulateOPT 2 [1, 2, 1, 3, 2]) (simulateFIFO 2 [1, 2, 1, 3, 2])
    (simulateLRU 2 [1, 2, 1, 3, 2])
    (match simulateCLOCK 2 [1, 2, 1, 3, 2] with
     | .ok r => r
     | .error _ => { steps := [], summary := { hits := 0, faults := 0 } })
    (by rfl) (by rfl) (by rfl) (by rfl)
  exact ⟨h.1, h.2.1⟩

-- ---------- Trace shape: counts, flags, snapshots ----------

theorem fifoGo_trace (c : ℕ) :
    ∀ (refs : List ℕ) (frames : List (Option ℕ)) (pointer hits faults i : ℕ),
      frames.length = c → (frames.filterMap id).Nodup →
      (fifoGo c frames pointer hits faults i refs).1.length = refs.length ∧
      (fifoGo c frames pointer hits faults i refs).2.hits =
        hits + ((fifoGo c frames pointer hits faults i refs).1.countP (·.hit)) ∧
      (fifoGo c frames pointer hits faults i refs).2.faults =
        faults + ((fifoGo c frames pointer hits faults i refs).1.countP (·.fault)) ∧
      (∀ s ∈ (fifoGo c frames pointer hits faults i refs).1,
        s.hit = !s.fault ∧ s.frames.length = c ∧ (s.frames.filterMap id).Nodup) ∧
      snapshotsChain frames (fifoGo c frames pointer hits faults i refs).1 := by
  intro refs
  induction refs with
  | nil =>
    intro frames pointer hits faults i _ _
    refine ⟨rfl, rfl, rfl, ?_, ?_⟩
    · intro s hs
      simp [fifoGo] at hs
    · simp [fifoGo, snapshotsChain]
  | cons p rest ih =>
    intro frames pointer hits faults i hlen hnd
    cases hHit : frames.findIdx? (· = some p) with
    | some k =>
      obtain ⟨ih1, ih2, ih3, ih4, ih5⟩ :=
        ih frames pointer (hits + 1) faults (i + 1) hlen hnd
      simp only [fifoGo, fifoStep, makeStep, hHit]
      refine ⟨by simpa using ih1, ?_, ?_, ?_, ?_⟩
      · simp [List.countP_cons]
        omega
      · simp [List.countP_cons]
        omega
      · intro s hs
        rcases List.mem_cons.mp hs with rfl | hs
        · exact ⟨rfl, hlen, hnd⟩
        · exact ih4 s hs
      · exact ⟨⟨fun _ => rfl, fun h => Bool.noConfusion h⟩, ih5⟩
    | none =>
      have hnotmem : some p ∉ frames := findIdx?_eq_none_not_mem.mp hHit
      have hpp : p ∉ pagesOf frames := fun h => hnotmem (mem_pagesOf.mp h)
      cases hEmpty : frames.findIdx? (· = (none : Option ℕ)) with
      | some ei =>
        have he := findIdx?_some_getD hEmpty
        have hlen' : (frames.set ei (some p)).length = c := by
          rw [List.length_set]; exact hlen
        have hnd' := nodup_set_of_none he.1 he.2.1 hnd hpp
        obtain ⟨ih1, ih2, ih3, ih4, ih5⟩ :=
          ih (frames.set ei (some p)) pointer hits (faults + 1) (i + 1) hlen' hnd'
        simp only [fifoGo, fifoStep, makeStep, hHit, hEmpty]
        refine ⟨by simpa using ih1, ?_, ?_, ?_, ?_⟩
        · simp [List.countP_cons]
          omega
        · simp [List.countP_cons]
          omega
        · intro s hs
          rcases List.mem_cons.mp hs with rfl | hs
          · exact ⟨rfl, hlen', hnd'⟩
          · exact ih4 s hs
        · exact ⟨⟨fun h => Bool.noConfusion h, fun _ => ⟨ei, hEmpty, rfl⟩⟩, ih5⟩
      | none =>
        have hfull : none ∉ frames := findIdx?_eq_none_not_mem.mp hEmpty
        have hlen' : (frames.set pointer (some p)).length = c := by
          rw [List.length_set]; exact hlen
        have hnd' : ((frames.set pointer (some p)).filterMap id).Nodup := by
          by_cases hpl : pointer < frames.length
          · cases hv : frames.getD pointer none with
            | none =>
              exact absurd (hv ▸ getD_mem hpl) hfull
            | some e =>
              exact nodup_set_of_some hpl hv hnd hpp
          · rw [List.set_eq_of_length_le (by omega)]
            exact hnd
        obtain ⟨ih1, ih2, ih3, ih4, ih5⟩ :=
          ih (frames.set pointer (some p)) ((pointer + 1) % c) hits (faults + 1)
            (i + 1) hlen' hnd'
        simp only [fifoGo, fifoStep, makeStep, hHit, hEmpty]
        refine ⟨by simpa using ih1, ?_, ?_, ?_, ?_⟩
        · simp [List.countP_cons]
          omega
        · simp [List.countP_cons]
          omega
        · intro s hs
          rcases List.mem_cons.mp hs with rfl | hs
          · exact ⟨rfl, hlen', hnd'⟩
          · exact ih4 s hs
        · exact ⟨⟨fun h => Bool.noConfusion h, fun _ => ⟨rfl, rfl⟩⟩, ih5⟩

theorem lruGo_trace (c : ℕ) (hc : 1 ≤ c) (fallback : WithBot ℕ) :
    ∀ (refs : List ℕ) (frames : List (Option ℕ)) (lastUsed : List (ℕ × ℕ))
      (hits faults i : ℕ),
      frames.length = c → (frames.filterMap id).Nodup →
      (lruGo fallback c frames lastUsed hits faults i refs).1.length = refs.length ∧
      (lruGo fallback c frames lastUsed hits faults i refs).2.hits =
        hits + ((lruGo fallback c frames lastUsed hits faults i refs).1.countP (·.hit)) ∧
      (lruGo fallback c frames lastUsed hits faults i refs).2.faults =
        faults + ((lruGo fallback c frames lastUsed hits faults i refs).1.countP (·.fault)) ∧
      (∀ s ∈ (lruGo fallback c frames lastUsed hits faults i refs).1,
        s.hit = !s.fault ∧ s.frames.length = c ∧ (s.frames.filterMap id).Nodup) ∧
      snapshotsChain frames (lruGo fallback c frames lastUsed hits faults i refs).1 := by
  intro refs
  induction refs with
  | nil =>
    intro frames lastUsed hits faults i _ _
    refine ⟨rfl, rfl, rfl, ?_, ?_⟩
    · intro s hs
      simp [lruGo] at hs
    · simp [lruGo, snapshotsChain]
  | cons p rest ih =>
    intro frames lastUsed hits faults i hlen hnd
    cases hHit : frames.findIdx? (· = some p) with
    | some k =>
      obtain ⟨ih1, ih2, ih3, ih4, ih5⟩ :=
        ih frames (mapSet lastUsed p i) (hits + 1) faults (i + 1) hlen hnd
      simp only [lruGo, lruStep, makeStep, hHit]
      refine ⟨by simpa using ih1, ?_, ?_, ?_, ?_⟩
      · simp [List.countP_cons]
        omega
      · simp [List.countP_cons]
        omega
      · intro s hs
        rcases List.mem_cons.mp hs with rfl | hs
        · exact ⟨rfl, hlen, hnd⟩
        · exact ih4 s hs
      · exact ⟨⟨fun _ => rfl, fun h => Bool.noConfusion h⟩, ih5⟩
    | none =>
      have hnotmem : some p ∉ frames := findIdx?_eq_none_not_mem.mp hHit
      have hpp : p ∉ pagesOf frames := fun h => hnotmem (mem_pagesOf.mp h)
      cases hEmpty : frames.findIdx? (· = (none : Option ℕ)) with
      | some ei =>
        have he := findIdx?_some_getD hEmpty
        have hlen' : (frames.set ei (some p)).length = c := by
          rw [List.length_set]; exact hlen
        have hnd' := nodup_set_of_none he.1 he.2.1 hnd hpp
        obtain ⟨ih1, ih2, ih3, ih4, ih5⟩ :=
          ih (frames.set ei (some p)) (mapSet lastUsed p i) hits (faults + 1)
            (i + 1) hlen' hnd'
        simp only [lruGo, lruStep, makeStep, hHit, hEmpty]
        refine ⟨by simpa using ih1, ?_, ?_, ?_, ?_⟩
        · simp [List.countP_cons]
          omega
        · simp [List.countP_cons]
          omega
        · intro s hs
          rcases List.mem_cons.mp hs with rfl | hs
          · exact ⟨rfl, hlen', hnd'⟩
          · exact ih4 s hs
        · exact ⟨⟨fun h => Bool.noConfusion h, fun _ => ⟨ei, hEmpty, rfl⟩⟩, ih5⟩
      | none =>
        have hfull : none ∉ frames := findIdx?_eq_none_not_mem.mp hEmpty
        obtain ⟨fi, hfic, hr1, hr2, hr3, _, _⟩ :=
          lruScan_victim frames lastUsed fallback c hc
        have hfilen : fi < frames.length := by omega
        cases hv : frames.getD fi none with
        | none =>
          exact absurd (hv ▸ getD_mem hfilen) hfull
        | some e =>
          have hlen' : (frames.set fi (some p)).length = c := by
            rw [List.length_set]; exact hlen
          have hnd' := nodup_set_of_some hfilen hv hnd hpp
          obtain ⟨ih1, ih2, ih3, ih4, ih5⟩ :=
            ih (frames.set fi (some p))
              (mapSet
                (match (lruScan frames lastUsed fallback (List.range c)
                    ((-1 : ℤ), none, ⊤)).2.1 with
                 | some vp => mapDelete lastUsed vp
                 | none => lastUsed) p i)
              hits (faults + 1) (i + 1) hlen' hnd'
          simp only [lruGo, lruStep, makeStep, hHit, hEmpty]
          rw [hr1]
          simp only [Int.toNat_natCast]
          refine ⟨by simpa using ih1, ?_, ?_, ?_, ?_⟩
          · simp [List.countP_cons]
            omega
          · simp [List.countP_cons]
            omega
          · intro s hs
            rcases List.mem_cons.mp hs with rfl | hs
            · exact ⟨rfl, hlen', hnd'⟩
            · exact ih4 s hs
          · exact ⟨⟨fun h => Bool.noConfusion h, fun _ => ⟨rfl, hr2⟩⟩, ih5⟩

theorem optGo_trace (c : ℕ) (hc : 1 ≤ c) :
    ∀ (refs : List ℕ) (frames : List (Option ℕ)) (hits faults i : ℕ),
      frames.length = c → (frames.filterMap id).Nodup →
      (optGo c frames hits faults i refs).1.length = refs.length ∧
      (optGo c frames hits faults i refs).2.hits =
        hits + ((optGo c frames hits faults i refs).1.countP (·.hit)) ∧
      (optGo c frames hits faults i refs).2.faults =
        faults + ((optGo c frames hits faults i refs).1.countP (·.fault)) ∧
      (∀ s ∈ (optGo c frames hits faults i refs).1,
        s.hit = !s.fault ∧ s.frames.length = c ∧ (s.frames.filterMap id).Nodup) ∧
      snapshotsChain frames (optGo c frames hits faults i refs).1 := by
  intro refs
  induction refs with
  | nil =>
    intro frames hits faults i _ _
    refine ⟨rfl, rfl, rfl, ?_, ?_⟩
    · intro s hs
      simp [optGo] at hs
    · simp [optGo, snapshotsChain]
  | cons p rest ih =>
    intro frames hits faults i hlen hnd
    cases hHit : frames.findIdx? (· = some p) with
    | some k =>
      obtain ⟨ih1, ih2, ih3, ih4, ih5⟩ := ih frames (hits + 1) faults (i + 1) hlen hnd
      simp only [optGo, optStep, makeStep, hHit]
      refine ⟨by simpa using ih1, ?_, ?_, ?_, ?_⟩
      · simp [List.countP_cons]
        omega
      · simp [List.countP_cons]
        omega
      · intro s hs
        rcases List.mem_cons.mp hs with rfl | hs
        · exact ⟨rfl, hlen, hnd⟩
        · exact ih4 s hs
      · exact ⟨⟨fun _ => rfl, fun h => Bool.noConfusion h⟩, ih5⟩
    | none =>
      have hnotmem : some p ∉ frames := findIdx?_eq_none_not_mem.mp hHit
      have hpp : p ∉ pagesOf frames := fun h => hnotmem (mem_pagesOf.mp h)
      cases hEmpty : frames.findIdx? (· = (none : Option ℕ)) with
      | some ei =>
        have he := findIdx?_some_getD hEmpty
        have hlen' : (frames.set ei (some p)).length = c := by
          rw [List.length_set]; exact hlen
        have hnd' := nodup_set_of_none he.1 he.2.1 hnd hpp
        obtain ⟨ih1, ih2, ih3, ih4, ih5⟩ :=
          ih (frames.set ei (some p)) hits (faults + 1) (i + 1) hlen' hnd'
        simp only [optGo, optStep, makeStep, hHit, hEmpty]
        refine ⟨by simpa using ih1, ?_, ?_, ?_, ?_⟩
        · simp [List.countP_cons]
          omega
        · simp [List.countP_cons]
          omega
        · intro s hs
          rcases List.mem_cons.mp hs with rfl | hs
          · exact ⟨rfl, hlen', hnd'⟩
          · exact ih4 s hs
        · exact ⟨⟨fun h => Bool.noConfusion h, fun _ => ⟨ei, hEmpty, rfl⟩⟩, ih5⟩
      | none =>
        have hfull : none ∉ frames := findIdx?_eq_none_not_mem.mp hEmpty
        obtain ⟨fi, hfic, hr1, hr2, hr3, _, _⟩ := optScan_victim rest i frames c hc
        have hfilen : fi < frames.length := by omega
        cases hv : frames.getD fi none with
        | none =>
          exact absurd (hv ▸ getD_mem hfilen) hfull
        | some e =>
          have hlen' : (frames.set fi (some p)).length = c := by
            rw [List.length_set]; exact hlen
          have hnd' := nodup_set_of_some hfilen hv hnd hpp
          obtain ⟨ih1, ih2, ih3, ih4, ih5⟩ :=
            ih (frames.set fi (some p)) hits (faults + 1) (i + 1) hlen' hnd'
          simp only [optGo, optStep, makeStep, hHit, hEmpty]
          rw [hr1]
          refine ⟨by simpa using ih1, ?_, ?_, ?_, ?_⟩
          · simp [List.countP_cons]
            omega
          · simp [List.countP_cons]
            omega
          · intro s hs
            rcases List.mem_cons.mp hs with rfl | hs
            · exact ⟨rfl, hlen', hnd'⟩
            · exact ih4 s hs
          · exact ⟨⟨fun h => Bool.noConfusion h, fun _ => ⟨rfl, hr2⟩⟩, ih5⟩

theorem clockGo_trace (c : ℕ) (hc : 1 ≤ c) :
    ∀ (refs : List ℕ) (frames : List (Option ℕ)) (refBits : List ℕ)
      (hand hits faults i : ℕ) (res : List Step × Summary),
      frames.length = c → (frames.filterMap id).Nodup →
      refBits.length = c → hand < c →
      clockGo c frames refBits hand hits faults i refs = .ok res →
      res.1.length = refs.length ∧
      res.2.hits = hits + (res.1.countP (·.hit)) ∧
      res.2.faults = faults + (res.1.countP (·.fault)) ∧
      (∀ s ∈ res.1,
        s.hit = !s.fault ∧ s.frames.length = c ∧ (s.frames.filterMap id).Nodup) ∧
      snapshotsChain frames res.1 := by
  intro refs
  induction refs with
  | nil =>
    intro frames refBits hand hits faults i res _ _ _ _ hok
    injection hok with h
    rw [← h]
    refine ⟨rfl, rfl, rfl, ?_, ?_⟩
    · intro s hs
      simp at hs
    · simp [snapshotsChain]
  | cons p rest ih =>
    intro frames refBits hand hits faults i res hlen hnd hblen hhand hok
    cases hHit : frames.findIdx? (· = some p) with
    | some k =>
      simp [clockGo, clockStep, makeStep, hHit] at hok
      cases hrec : clockGo c frames (refBits.set k 1) hand (hits + 1) faults
          (i + 1) rest with
      | error e => rw [hrec] at hok; cases hok
      | ok rec' =>
        rw [hrec] at hok
        injection hok with h
        rw [← h]
        dsimp only
        obtain ⟨ih1, ih2, ih3, ih4, ih5⟩ := ih frames (refBits.set k 1) hand
          (hits + 1) faults (i + 1) rec' hlen hnd
          (by rw [List.length_set]; exact hblen) hhand hrec
        refine ⟨by simpa using ih1, ?_, ?_, ?_, ?_⟩
        · simp [List.countP_cons]
          omega
        · simp [List.countP_cons]
          omega
        · intro s hs
          rcases List.mem_cons.mp hs with rfl | hs
          · exact ⟨rfl, hlen, hnd⟩
          · exact ih4 s hs
        · exact ⟨⟨fun _ => rfl, fun h => Bool.noConfusion h⟩, ih5⟩
    | none =>
      have hnotmem : some p ∉ frames := findIdx?_eq_none_not_mem.mp hHit
      have hpp : p ∉ pagesOf frames := fun h => hnotmem (mem_pagesOf.mp h)
      cases hEmpty : frames.findIdx? (· = (none : Option ℕ)) with
      | some ei =>
        have he := findIdx?_some_getD hEmpty
        have hlen' : (frames.set ei (some p)).length = c := by
          rw [List.length_set]; exact hlen
        have hnd' := nodup_set_of_none he.1 he.2.1 hnd hpp
        simp [clockGo, clockStep, makeStep, hHit, hEmpty] at hok
        cases hrec : clockGo c (frames.set ei (some p)) (refBits.set ei 1) hand
            hits (faults + 1) (i + 1) rest with
        | error e => rw [hrec] at hok; cases hok
        | ok rec' =>
          rw [hrec] at hok
          injection hok with h
          rw [← h]
          dsimp only
          obtain ⟨ih1, ih2, ih3, ih4, ih5⟩ := ih (frames.set ei (some p))
            (refBits.set ei 1) hand hits (faults + 1) (i + 1) rec' hlen' hnd'
            (by rw [List.length_set]; exact hblen) hhand hrec
          refine ⟨by simpa using ih1, ?_, ?_, ?_, ?_⟩
          · simp [List.countP_cons]
            omega
          · simp [List.countP_cons]
            omega
          · intro s hs
            rcases List.mem_cons.mp hs with rfl | hs
            · exact ⟨rfl, hlen', hnd'⟩
            · exact ih4 s hs
          · exact ⟨⟨fun h => Bool.noConfusion h, fun _ => ⟨ei, hEmpty, rfl⟩⟩, ih5⟩
      | none =>
        have hfull : none ∉ frames := findIdx?_eq_none_not_mem.mp hEmpty
        cases hscan : clockScan c p frames refBits hand 0 (c * 5 + 1) with
        | error e =>
          simp [clockGo, clockStep, makeStep, hHit, hEmpty, hscan] at hok
        | ok r =>
          obtain ⟨hvic, hfr, hrepl, hrh, hrblen, hrhand, _⟩ :=
            clockScan_ok_spec c p hc (c * 5 + 1) 0 frames refBits hand r
              hblen hhand hscan
          have hvilen : r.replacedIndex < frames.length := by omega
          cases hv : frames.getD r.replacedIndex none with
          | none =>
            exact absurd (hv ▸ getD_mem hvilen) hfull
          | some e =>
            have hlen' : r.frames.length = c := by
              rw [hfr, List.length_set]; exact hlen
            have hnd' : (r.frames.filterMap id).Nodup := by
              rw [hfr]; exact nodup_set_of_some hvilen hv hnd hpp
            simp [clockGo, clockStep, makeStep, hHit, hEmpty, hscan] at hok
            cases hrec : clockGo c r.frames r.refBits r.hand hits (faults + 1)
                (i + 1) rest with
            | error e2 => rw [hrec] at hok; cases hok
            | ok rec' =>
              rw [hrec] at hok
              injection hok with h
              rw [← h]
              dsimp only
              obtain ⟨ih1, ih2, ih3, ih4, ih5⟩ := ih r.frames r.refBits r.hand
                hits (faults + 1) (i + 1) rec' hlen' hnd' hrblen hrhand hrec
              refine ⟨by simpa using ih1, ?_, ?_, ?_, ?_⟩
              · simp [List.countP_cons]
                omega
              · simp [List.countP_cons]
                omega
              · intro s hs
                rcases List.mem_cons.mp hs with rfl | hs
                · exact ⟨rfl, hlen', hnd'⟩
                · exact ih4 s hs
              · exact ⟨⟨fun h => Bool.noConfusion h, fun _ => ⟨hfr, hrepl⟩⟩, ih5⟩

theorem simulate_ok_cases (name : String) (cap : ℚ) (refs : List ℕ)
    (res : SimResult) (hok : simulate name cap refs = .ok res) :
    (cap.den = 1 ∧ 1 ≤ cap ∧ cap ≤ 50) ∧ refs ≠ [] ∧
    ((name = "FIFO" ∧ res = simulateFIFO cap.num.toNat refs) ∨
     (name = "LRU" ∧ res = simulateLRU cap.num.toNat refs) ∨
     (name = "OPT" ∧ res = simulateOPT cap.num.toNat refs) ∨
     (name = "CLOCK" ∧ simulateCLOCK cap.num.toNat refs = .ok res)) := by
  unfold simulate at hok
  by_cases hcond : cap.den = 1 ∧ 1 ≤ cap ∧ cap ≤ 50
  · rw [if_pos hcond] at hok
    by_cases hne : refs = []
    · rw [if_pos hne] at hok
      cases hok
    · rw [if_neg hne] at hok
      refine ⟨hcond, hne, ?_⟩
      split at hok
      · exact Or.inl ⟨rfl, by injection hok with h; rw [h]⟩
      · exact Or.inr (Or.inl ⟨rfl, by injection hok with h; rw [h]⟩)
      · exact Or.inr (Or.inr (Or.inl ⟨rfl, by injection hok with h; rw [h]⟩))
      · refine Or.inr (Or.inr (Or.inr ⟨rfl, ?_⟩))
        dsimp only at hok
        cases hclock : simulateCLOCK cap.num.toNat refs with
        | error e => rw [hclock] at hok; cases hok
        | ok r =>
          rw [hclock] at hok
          injection hok with h
          rw [h]
      · cases hok
  · rw [if_neg hcond] at hok
    cases hok

theorem countP_hit_fault :
    ∀ l : List Step, (∀ s ∈ l, s.hit = !s.fault) →
      l.countP (·.hit) + l.countP (·.fault) = l.length := by
  intro l
  induction l with
  | nil => intro _; simp
  | cons s t ih =>
    intro h
    have hs := h s (List.mem_cons_self s t)
    have ht := ih fun x hx => h x (List.mem_cons_of_mem s hx)
    simp only [List.countP_cons, List.length_cons]
    cases hfault : s.fault with
    | false =>
      rw [hfault] at hs
      simp [hs, hfault]
      omega
    | true =>
      rw [hfault] at hs
      simp [hs, hfault]
      omega

/-- C7: for every policy and valid input, every step record's slot-table
snapshot has length exactly the capacity, no identifier occupies two slots in
it, and each snapshot equals the slot table after that step's decision has
been applied to the previous snapshot. -/
theorem step_snapshot_invariants
    (name : String) (cap : ℚ) (refs : List ℕ) (res : SimResult)
    (hok : simulate name cap refs = .ok res) :
    (∀ s ∈ res.steps, s.frames.length = cap.num.toNat ∧
      (s.frames.filterMap id).Nodup) ∧
    snapshotsChain (List.replicate cap.num.toNat none) res.steps := by
  obtain ⟨hcond, hne, hcase⟩ := simulate_ok_cases name cap refs res hok
  have hc : 1 ≤ cap.num.toNat := capNat_pos hcond.1 hcond.2.1
  have hlen := List.length_replicate cap.num.toNat (none : Option ℕ)
  have hnd := nodup_replicate_none cap.num.toNat
  rcases hcase with ⟨-, hres⟩ | ⟨-, hres⟩ | ⟨-, hres⟩ | ⟨-, hres⟩
  · obtain ⟨_, _, _, h4, h5⟩ := fifoGo_trace cap.num.toNat refs
      (List.replicate cap.num.toNat none) 0 0 0 0 hlen hnd
    rw [hres]
    exact ⟨fun s hs => ((h4 s hs).2), h5⟩
  · obtain ⟨_, _, _, h4, h5⟩ := lruGo_trace cap.num.toNat hc ⊥ refs
      (List.replicate cap.num.toNat none) [] 0 0 0 hlen hnd
    rw [hres]
    exact ⟨fun s hs => ((h4 s hs).2), h5⟩
  · obtain ⟨_, _, _, h4, h5⟩ := optGo_trace cap.num.toNat hc refs
      (List.replicate cap.num.toNat none) 0 0 0 hlen hnd
    rw [hres]
    exact ⟨fun s hs => ((h4 s hs).2), h5⟩
  · unfold simulateCLOCK at hres
    cases hgo : clockGo cap.num.toNat (List.replicate cap.num.toNat none)
        (List.replicate cap.num.toNat 0) 0 0 0 0 refs with
    | error e => rw [hgo] at hres; cases hres
    | ok r =>
      rw [hgo] at hres
      injection hres with h
      obtain ⟨_, _, _, h4, h5⟩ := clockGo_trace cap.num.toNat hc refs
        (List.replicate cap.num.toNat none) (List.replicate cap.num.toNat 0)
        0 0 0 0 r hlen hnd (List.length_replicate cap.num.toNat 0) (by omega) hgo
      rw [← h]
      exact ⟨fun s hs => ((h4 s hs).2), h5⟩

/-- Witness for the snapshot invariants at a concrete run. -/
theorem step_snapshot_invariants_witness :
    (∀ s ∈ (simulateFIFO 2 [1, 2, 1, 3, 2]).steps,
      s.frames.length = 2 ∧ (s.frames.filterMap id).Nodup) ∧
    snapshotsChain (List.replicate 2 none) (simulateFIFO 2 [1, 2, 1, 3, 2]).steps :=
  step_snapshot_invariants "FIFO" 2 [1, 2, 1, 3, 2]
    (simulateFIFO 2 [1, 2, 1, 3, 2]) (by rfl)

/-- C8: for every policy and valid input, the trace has one step record per
reference, each record has exactly one of hit/fault set, and the summary
counts the hit and fault records, with hits + faults = number of references. -/
theorem trace_counts
    (name : String) (cap : ℚ) (refs : List ℕ) (res : SimResult)
    (hok : simulate name cap refs = .ok res) :
    res.steps.length = refs.length ∧
    (∀ s ∈ res.steps, (s.hit = true ↔ ¬ s.fault = true)) ∧
    res.summary.hits = res.steps.countP (·.hit) ∧
    res.summary.faults = res.steps.countP (·.fault) ∧
    res.summary.hits + res.summary.faults = refs.length := by
  obtain ⟨hcond, hne, hcase⟩ := simulate_ok_cases name cap refs res hok
  have hc : 1 ≤ cap.num.toNat := capNat_pos hcond.1 hcond.2.1
  have hlen := List.length_replicate cap.num.toNat (none : Option ℕ)
  have hnd := nodup_replicate_none cap.num.toNat
  have main : ∀ (steps : List Step) (summary : Summary),
      steps.length = refs.length →
      summary.hits = 0 + steps.countP (·.hit) →
      summary.faults = 0 + steps.countP (·.fault) →
      (∀ s ∈ steps, s.hit = !s.fault) →
      res = { steps := steps, summary := summary } →
      res.steps.length = refs.length ∧
      (∀ s ∈ res.steps, (s.hit = true ↔ ¬ s.fault = true)) ∧
      res.summary.hits = res.steps.countP (·.hit) ∧
      res.summary.faults = res.steps.countP (·.fault) ∧
      res.summary.hits + res.summary.faults = refs.length := by
    intro steps summary h1 h2 h3 h4 hres
    subst hres
    refine ⟨h1, ?_, by simpa using h2, by simpa using h3, ?_⟩
    · intro s hs
      have := h4 s hs
      cases hfault : s.fault <;> rw [hfault] at this <;> simp [this, hfault]
    · have := countP_hit_fault steps h4
      simp only at h2 h3 ⊢
      omega
  rcases hcase with ⟨-, hres⟩ | ⟨-, hres⟩ | ⟨-, hres⟩ | ⟨-, hres⟩
  · obtain ⟨h1, h2, h3, h4, _⟩ := fifoGo_trace cap.num.toNat refs
      (List.replicate cap.num.toNat none) 0 0 0 0 hlen hnd
    exact main _ _ h1 h2 h3 (fun s hs => (h4 s hs).1) hres
  · obtain ⟨h1, h2, h3, h4, _⟩ := lruGo_trace cap.num.toNat hc ⊥ refs
      (List.replicate cap.num.toNat none) [] 0 0 0 hlen hnd
    exact main _ _ h1 h2 h3 (fun s hs => (h4 s hs).1) hres
  · obtain ⟨h1, h2, h3, h4, _⟩ := optGo_trace cap.num.toNat hc refs
      (List.replicate cap.num.toNat none) 0 0 0 hlen hnd
    exact main _ _ h1 h2 h3 (fun s hs => (h4 s hs).1) hres
  · unfold simulateCLOCK at hres
    cases hgo : clockGo cap.num.toNat (List.replicate cap.num.toNat none)
        (List.replicate cap.num.toNat 0) 0 0 0 0 refs with
    | error e => rw [hgo] at hres; cases hres
    | ok r =>
      rw [hgo] at hres
      injection hres with h
      obtain ⟨h1, h2, h3, h4, _⟩ := clockGo_trace cap.num.toNat hc refs
        (List.replicate cap.num.toNat none) (List.replicate cap.num.toNat 0)
        0 0 0 0 r hlen hnd (List.length_replicate cap.num.toNat 0) (by omega) hgo
      exact main r.1 r.2 h1 h2 h3 (fun s hs => (h4 s hs).1) (by rw [← h])

/-- Witness for the trace counting properties at a concrete run. -/
theorem trace_counts_witness :
    (simulateLRU 2 [1, 2, 1, 3, 2]).steps.length = ([1, 2, 1, 3, 2] : List ℕ).length ∧
    (∀ s ∈ (simulateLRU 2 [1, 2, 1, 3, 2]).steps, (s.hit = true ↔ ¬ s.fault = true)) ∧
    (simulateLRU 2 [1, 2, 1, 3, 2]).summary.hits =
      (simulateLRU 2 [1, 2, 1, 3, 2]).steps.countP (·.hit) ∧
    (simulateLRU 2 [1, 2, 1, 3, 2]).summary.faults =
      (simulateLRU 2 [1, 2, 1, 3, 2]).steps.countP (·.fault) ∧
    (simulateLRU 2 [1, 2, 1, 3, 2]).summary.hits +
      (simulateLRU 2 [1, 2, 1, 3, 2]).summary.faults = ([1, 2, 1, 3, 2] : List ℕ).length :=
  trace_counts "LRU" 2 [1, 2, 1, 3, 2] (simulateLRU 2 [1, 2, 1, 3, 2]) (by rfl)

/-- C6: with references [1,2,3,4,1,2,5,1,2,3,4,5] the FIFO engine produces
exactly 9 faults and 3 hits at capacity 3, and exactly 10 faults and 2 hits
at capacity 4, so its fault count increases when the capacity increases
(Belady's anomaly). -/
theorem fifo_belady_anomaly :
    (simulate "FIFO" 3 [1, 2, 3, 4, 1, 2, 5, 1, 2, 3, 4, 5] =
      .ok (simulateFIFO 3 [1, 2, 3, 4, 1, 2, 5, 1, 2, 3, 4, 5])) ∧
    (simulateFIFO 3 [1, 2, 3, 4, 1, 2, 5, 1, 2, 3, 4, 5]).summary.faults = 9 ∧
    (simulateFIFO 3 [1, 2, 3, 4, 1, 2, 5, 1, 2, 3, 4, 5]).summary.hits = 3 ∧
    (simulate "FIFO" 4 [1, 2, 3, 4, 1, 2, 5, 1, 2, 3, 4, 5] =
      .ok (simulateFIFO 4 [1, 2, 3, 4, 1, 2, 5, 1, 2, 3, 4, 5])) ∧
    (simulateFIFO 4 [1, 2, 3, 4, 1, 2, 5, 1, 2, 3, 4, 5]).summary.faults = 10 ∧
    (simulateFIFO 4 [1, 2, 3, 4, 1, 2, 5, 1, 2, 3, 4, 5]).summary.hits = 2 ∧
    (simulateFIFO 3 [1, 2, 3, 4, 1, 2, 5, 1, 2, 3, 4, 5]).summary.faults <
      (simulateFIFO 4 [1, 2, 3, 4, 1, 2, 5, 1, 2, 3, 4, 5]).summary.faults := by
  refine ⟨by rfl, by rfl, by rfl, by rfl, by rfl, by rfl, by decide⟩

/-- C9: `simulate` fails with `InvalidCapacity` whenever the capacity is not
an integer or lies outside [1,50]; with `EmptyReferenceSequence` whenever the
reference list is empty (and the capacity is valid); and with `UnknownPolicy`
whenever the policy name is not one of the four engines.  Each failure is a
distinct error constructor and an `Except.error` result, so no partial trace
is ever returned. -/
theorem simulate_validation :
    (∀ (name : String) (cap : ℚ) (refs : List ℕ),
      ¬ (cap.den = 1 ∧ 1 ≤ cap ∧ cap ≤ 50) →
      simulate name cap refs = .error .invalidCapacity) ∧
    (∀ (name : String) (cap : ℚ),
      (cap.den = 1 ∧ 1 ≤ cap ∧ cap ≤ 50) →
      simulate name cap [] = .error .emptyReferenceSequence) ∧
    (∀ (name : String) (cap : ℚ) (refs : List ℕ),
      (cap.den = 1 ∧ 1 ≤ cap ∧ cap ≤ 50) → refs ≠ [] →
      name ≠ "FIFO" → name ≠ "LRU" → name ≠ "OPT" → name ≠ "CLOCK" →
      simulate name cap refs = .error (.unknownPolicy name)) := by
  refine ⟨?_, ?_, ?_⟩
  · intro name cap refs hcond
    unfold simulate
    rw [if_neg hcond]
  · intro name cap hcond
    unfold simulate
    rw [if_pos hcond, if_pos rfl]
  · intro name cap refs hcond hne h1 h2 h3 h4
    unfold simulate
    rw [if_pos hcond, if_neg hne]
    dsimp only
    split
    · exact absurd rfl h1
    · exact absurd rfl h2
    · exact absurd rfl h3
    · exact absurd rfl h4
    · rfl

/-- Witness for the validation failures at concrete invalid inputs. -/
theorem simulate_validation_witness :
    simulate "FIFO" 0 [1] = .error .invalidCapacity ∧
    simulate "FIFO" 51 [1] = .error .invalidCapacity ∧
    simulate "FIFO" (1 / 2 : ℚ) [1] = .error .invalidCapacity ∧
    simulate "FIFO" 5 [] = .error .emptyReferenceSequence ∧
    simulate "NRU" 5 [1] = .error (.unknownPolicy "NRU") :=
  ⟨simulate_validation.1 "FIFO" 0 [1] (by norm_num),
   simulate_validation.1 "FIFO" 51 [1] (by norm_num),
   simulate_validation.1 "FIFO" (1 / 2 : ℚ) [1] (by norm_num),
   simulate_validation.2.1 "FIFO" 5 (by norm_num),
   simulate_validation.2.2 "NRU" 5 [1] (by norm_num) (by decide)
     (by decide) (by decide) (by decide) (by decide)⟩

-- ---------- nextUse characterization and the OPT victim rule ----------

theorem findIdx?_eq_none_not_mem' {α : Type} [DecidableEq α] {l : List α} {x : α} :
    l.findIdx? (· = x) = none ↔ x ∉ l := by
  rw [List.findIdx?_eq_none_iff]
  constructor
  · intro h hx
    have := h x hx
    simp at this
  · intro h y hy
    simp only [decide_eq_false_iff_not]
    intro hyx
    exact h (hyx ▸ hy)

theorem findIdx?_some_getD' {α : Type} [DecidableEq α] {l : List α} {x d : α} {k : ℕ}
    (h : l.findIdx? (· = x) = some k) :
    k < l.length ∧ l.getD k d = x ∧ ∀ j, j < k → l.getD j d ≠ x := by
  rw [List.findIdx?_eq_some_iff_getElem] at h
  obtain ⟨hk, hx, hprev⟩ := h
  refine ⟨hk, ?_, ?_⟩
  · rw [List.getD_eq_getElem l d hk]
    simpa using hx
  · intro j hj
    rw [List.getD_eq_getElem l d (hj.trans hk)]
    have := hprev j hj
    simpa using this

theorem nextUse_eq_findIdx? (p : ℕ) :
    ∀ l : List ℕ,
      nextUse p l = (match l.findIdx? (· = p) with
        | some k => ((k : ℕ) : WithTop ℕ)
        | none => ⊤) := by
  intro l
  induction l with
  | nil => rfl
  | cons q r ih =>
    by_cases h : q = p
    · subst h
      simp [nextUse, List.findIdx?_cons]
    · rw [nextUse_cons_ne r h, ih]
      rw [List.findIdx?_cons, if_neg (by simp [h]), List.findIdx?_succ]
      cases hf : r.findIdx? (· = p) with
      | some k =>
        simp only [hf, Option.map_some']
        push_cast
        ring
      | none =>
        simp [hf, WithTop.top_add]

theorem nextUse_eq_top_iff (p : ℕ) (l : List ℕ) : nextUse p l = ⊤ ↔ p ∉ l := by
  rw [nextUse_eq_findIdx?]
  cases hf : l.findIdx? (· = p) with
  | none =>
    simp only []
    rw [findIdx?_eq_none_not_mem'] at hf
    simp [hf]
  | some k =>
    simp only []
    obtain ⟨hk, hval, _⟩ := findIdx?_some_getD' (d := p) hf
    constructor
    · intro h
      exact absurd h.symm (WithTop.top_ne_coe)
    · intro h
      exfalso
      apply h
      rw [← hval]
      rw [List.getD_eq_getElem l p hk]
      exact List.getElem_mem hk

theorem nextUse_coe_iff (p : ℕ) (l : List ℕ) (k : ℕ) :
    nextUse p l = ((k : ℕ) : WithTop ℕ) ↔
      (k < l.length ∧ l.getD k (p + 1) = p ∧ ∀ m, m < k → l.getD m (p + 1) ≠ p) := by
  rw [nextUse_eq_findIdx?]
  cases hf : l.findIdx? (· = p) with
  | none =>
    simp only []
    rw [findIdx?_eq_none_not_mem'] at hf
    constructor
    · intro h
      exact absurd h WithTop.top_ne_coe
    · rintro ⟨hk, hval, -⟩
      exfalso
      apply hf
      rw [← hval, List.getD_eq_getElem l (p + 1) hk]
      exact List.getElem_mem hk
  | some k' =>
    simp only []
    obtain ⟨hk', hval', hprev'⟩ := findIdx?_some_getD' (d := p + 1) hf
    constructor
    · intro h
      have hkk : k' = k := by exact_mod_cast h
      subst hkk
      exact ⟨hk', hval', hprev'⟩
    · rintro ⟨hk, hval, hprev⟩
      have hkk : k' = k := by
        rcases Nat.lt_trichotomy k' k with hlt | heq | hgt
        · exact absurd hval' (hprev k' hlt)
        · exact heq
        · exact absurd hval (hprev' k hgt)
      rw [hkk]

theorem withTop_add_coe_eq_top_iff {x : WithTop ℕ} (k : ℕ) :
    x + ((k : ℕ) : WithTop ℕ) = ⊤ ↔ x = ⊤ := by
  constructor
  · intro h
    by_contra hx
    obtain ⟨n, hn⟩ := WithTop.ne_top_iff_exists.mp hx
    rw [← hn] at h
    have hcoe : ((n + k : ℕ) : WithTop ℕ) = ⊤ := by
      push_cast
      exact h
    exact WithTop.coe_ne_top hcoe
  · intro h
    rw [h, WithTop.top_add]

/-- C2: on a full-table fault at position `i`, the OPT engine computes for
each slot the smallest reference index `j > i` at which the occupant
reappears (`⊤` when it never does), and evicts the occupant of the
first-scanned slot whose next-use value is maximal: earlier slots all score
strictly below the victim, so exactly equal next-use indices are won by the
lowest slot index. -/
theorem opt_victim_rule
    (c i p : ℕ) (rest : List ℕ) (frames : List (Option ℕ))
    (hc : 1 ≤ c) (hlen : frames.length = c)
    (hfault : some p ∉ frames) (hfull : none ∉ frames) :
    ∃ fi, fi < c ∧
      (optStep c i p rest frames).1.replacedIndex = some fi ∧
      (optStep c i p rest frames).1.replaced = frames.getD fi none ∧
      (optStep c i p rest frames).2 = frames.set fi (some p) ∧
      (∀ fj pg, fj < c → frames.getD fj none = some pg →
        ((optScore rest i frames fj = ⊤ ↔ pg ∉ rest) ∧
         ∀ j : ℕ, (optScore rest i frames fj = ((j : ℕ) : WithTop ℕ) ↔
           ∃ k, j = i + 1 + k ∧ k < rest.length ∧ rest.getD k (pg + 1) = pg ∧
             ∀ m, m < k → rest.getD m (pg + 1) ≠ pg))) ∧
      (∀ fj, fj < c → optScore rest i frames fj ≤ optScore rest i frames fi) ∧
      (∀ fj, fj < fi → optScore rest i frames fj < optScore rest i frames fi) := by
  have hHit : frames.findIdx? (· = some p) = none := findIdx?_eq_none_not_mem.mpr hfault
  have hEmpty : frames.findIdx? (· = (none : Option ℕ)) = none :=
    findIdx?_eq_none_not_mem.mpr hfull
  obtain ⟨fi, hfic, hr1, hr2, hr3, hmax, hfirst⟩ := optScan_victim rest i frames c hc
  refine ⟨fi, hfic, ?_, ?_, ?_, ?_, hmax, hfirst⟩
  · simp only [optStep, makeStep, hHit, hEmpty]
    rw [hr1]
  · simp only [optStep, makeStep, hHit, hEmpty]
    rw [hr2]
  · simp only [optStep, makeStep, hHit, hEmpty]
    rw [hr1]
  · intro fj pg hfj hv
    have hscore : optScore rest i frames fj =
        nextUse pg rest + ((i + 1 : ℕ) : WithTop ℕ) := by
      unfold optScore
      rw [hv]
    constructor
    · rw [hscore, withTop_add_coe_eq_top_iff]
      exact nextUse_eq_top_iff pg rest
    · intro j
      rw [hscore]
      by_cases htop : nextUse pg rest = ⊤
      · rw [htop, WithTop.top_add]
        constructor
        · intro h
          exact absurd h WithTop.top_ne_coe
        · rintro ⟨k, rfl, hk, hval, hprev⟩
          exfalso
          have hcoe := (nextUse_coe_iff pg rest k).mpr ⟨hk, hval, hprev⟩
          rw [htop] at hcoe
          exact WithTop.top_ne_coe hcoe
      · obtain ⟨n, hn⟩ := WithTop.ne_top_iff_exists.mp htop
        rw [← Nat.cast_withTop] at hn
        rw [← hn]
        obtain ⟨hk, hval, hprev⟩ := (nextUse_coe_iff pg rest n).mp hn.symm
        constructor
        · intro h
          have hj : n + (i + 1) = j := by exact_mod_cast h
          exact ⟨n, by omega, hk, hval, hprev⟩
        · rintro ⟨k, rfl, hk2, hval2, hprev2⟩
          have hthis := (nextUse_coe_iff pg rest k).mpr ⟨hk2, hval2, hprev2⟩
          rw [← hn] at hthis
          have hkn : n = k := by exact_mod_cast hthis
          subst hkn
          have harith : n + (i + 1) = i + 1 + n := by omega
          exact_mod_cast harith

/-- Witness for the OPT victim rule: capacity 2, position 3 of
`[1,2,1,3,2]` (frames `[1,2]`, remaining references `[2]`). -/
theorem opt_victim_rule_witness :
    ∃ fi, fi < 2 ∧
      (optStep 2 3 3 [2] [some 1, some 2]).1.replacedIndex = some fi ∧
      (optStep 2 3 3 [2] [some 1, some 2]).1.replaced =
        ([some 1, some 2] : List (Option ℕ)).getD fi none ∧
      (optStep 2 3 3 [2] [some 1, some 2]).2 =
        ([some 1, some 2] : List (Option ℕ)).set fi (some 3) ∧
      (∀ fj pg, fj < 2 → ([some 1, some 2] : List (Option ℕ)).getD fj none = some pg →
        ((optScore [2] 3 [some 1, some 2] fj = ⊤ ↔ pg ∉ [2]) ∧
         ∀ j : ℕ, (optScore [2] 3 [some 1, some 2] fj = ((j : ℕ) : WithTop ℕ) ↔
           ∃ k, j = 3 + 1 + k ∧ k < ([2] : List ℕ).length ∧
             ([2] : List ℕ).getD k (pg + 1) = pg ∧
             ∀ m, m < k → ([2] : List ℕ).getD m (pg + 1) ≠ pg))) ∧
      (∀ fj, fj < 2 →
        optScore [2] 3 [some 1, some 2] fj ≤ optScore [2] 3 [some 1, some 2] fi) ∧
      (∀ fj, fj < fi →
        optScore [2] 3 [some 1, some 2] fj < optScore [2] 3 [some 1, some 2] fi) :=
  opt_victim_rule 2 3 3 [2] [some 1, some 2] (by decide) (by decide)
    (by decide) (by decide)

-- ---------- Bookkeeping map lemmas ----------

theorem lookup_cons_eq (k1 v1 : ℕ) (rest : List (ℕ × ℕ)) (k : ℕ) :
    ((k1, v1) :: rest).lookup k = if k = k1 then some v1 else rest.lookup k := by
  by_cases h : k = k1
  · have hb : (k == k1) = true := beq_iff_eq.mpr h
    rw [List.lookup_cons, hb, if_pos h]
  · have hb : (k == k1) = false := beq_eq_false_iff_ne.mpr h
    rw [List.lookup_cons, hb, if_neg h]

theorem lookup_mapSet_self (m : List (ℕ × ℕ)) (k v : ℕ) :
    (mapSet m k v).lookup k = some v := by
  induction m with
  | nil => simp [mapSet, lookup_cons_eq]
  | cons kv rest ih =>
    obtain ⟨k', v'⟩ := kv
    by_cases h : k' = k
    · simp [mapSet, h, lookup_cons_eq]
    · simp only [mapSet, if_neg h]
      rw [lookup_cons_eq, if_neg (fun hk => h hk.symm)]
      exact ih

theorem lookup_mapSet_ne (m : List (ℕ × ℕ)) (k v k' : ℕ) (h : k' ≠ k) :
    (mapSet m k v).lookup k' = m.lookup k' := by
  induction m with
  | nil => simp [mapSet, lookup_cons_eq, h]
  | cons kv rest ih =>
    obtain ⟨k1, v1⟩ := kv
    by_cases h1 : k1 = k
    · subst h1
      simp [mapSet, lookup_cons_eq, h]
    · simp only [mapSet, if_neg h1]
      rw [lookup_cons_eq, lookup_cons_eq]
      by_cases h2 : k' = k1
      · simp [h2]
      · rw [if_neg h2, if_neg h2]
        exact ih

theorem lookup_mapDelete_ne (m : List (ℕ × ℕ)) (k k' : ℕ) (h : k' ≠ k) :
    (mapDelete m k).lookup k' = m.lookup k' := by
  induction m with
  | nil => simp [mapDelete]
  | cons kv rest ih =>
    obtain ⟨k1, v1⟩ := kv
    by_cases h1 : k1 = k
    · subst h1
      simp [mapDelete, lookup_cons_eq, h]
    · simp only [mapDelete, if_neg h1]
      rw [lookup_cons_eq, lookup_cons_eq]
      by_cases h2 : k' = k1
      · simp [h2]
      · rw [if_neg h2, if_neg h2]
        exact ih

theorem mem_keys_of_lookup {m : List (ℕ × ℕ)} {k v : ℕ} (h : m.lookup k = some v) :
    k ∈ m.map Prod.fst := by
  induction m with
  | nil => simp at h
  | cons kv rest ih =>
    obtain ⟨k1, v1⟩ := kv
    rw [lookup_cons_eq] at h
    by_cases h1 : k = k1
    · subst h1; simp
    · rw [if_neg h1] at h
      simp [ih h]

theorem lookup_isSome_iff (m : List (ℕ × ℕ)) (k : ℕ) :
    (m.lookup k).isSome ↔ k ∈ m.map Prod.fst := by
  induction m with
  | nil => simp
  | cons kv rest ih =>
    obtain ⟨k1, v1⟩ := kv
    rw [lookup_cons_eq]
    by_cases h1 : k = k1
    · simp [h1]
    · rw [if_neg h1]
      simp only [List.map_cons, List.mem_cons]
      rw [ih]
      constructor
      · exact Or.inr
      · rintro (h | h)
        · exact absurd h h1
        · exact h

theorem lookup_mapDelete_self (m : List (ℕ × ℕ)) (k : ℕ)
    (hnd : (m.map Prod.fst).Nodup) : (mapDelete m k).lookup k = none := by
  induction m with
  | nil => simp [mapDelete]
  | cons kv rest ih =>
    obtain ⟨k1, v1⟩ := kv
    simp only [List.map_cons, List.nodup_cons] at hnd
    by_cases h1 : k1 = k
    · subst h1
      have hmd : mapDelete ((k1, v1) :: rest) k1 = rest := by
        unfold mapDelete
        rw [if_pos rfl]
      rw [hmd]
      cases hl : rest.lookup k1 with
      | none => rfl
      | some v2 =>
        exact absurd (mem_keys_of_lookup hl) hnd.1
    · simp only [mapDelete, if_neg h1]
      rw [lookup_cons_eq, if_neg (fun h => h1 h.symm)]
      exact ih hnd.2

theorem keys_mapSet_subset (m : List (ℕ × ℕ)) (k v : ℕ) :
    ∀ x, x ∈ (mapSet m k v).map Prod.fst → x = k ∨ x ∈ m.map Prod.fst := by
  induction m with
  | nil =>
    intro x hx
    simp [mapSet] at hx
    exact Or.inl hx
  | cons kv rest ih =>
    obtain ⟨k1, v1⟩ := kv
    intro x hx
    by_cases h1 : k1 = k
    · subst h1
      have hms : mapSet ((k1, v1) :: rest) k1 v = (k1, v) :: rest := by
        unfold mapSet
        rw [if_pos rfl]
      rw [hms] at hx
      simp only [List.map_cons, List.mem_cons] at hx
      simp only [List.map_cons, List.mem_cons]
      rcases hx with h | h
      · exact Or.inl h
      · exact Or.inr (Or.inr h)
    · simp only [mapSet, if_neg h1, List.map_cons, List.mem_cons] at hx
      simp only [List.map_cons, List.mem_cons]
      rcases hx with h | h
      · exact Or.inr (Or.inl h)
      · rcases ih x h with h' | h'
        · exact Or.inl h'
        · exact Or.inr (Or.inr h')

theorem keys_nodup_mapSet (m : List (ℕ × ℕ)) (k v : ℕ)
    (hnd : (m.map Prod.fst).Nodup) : ((mapSet m k v).map Prod.fst).Nodup := by
  induction m with
  | nil => simp [mapSet]
  | cons kv rest ih =>
    obtain ⟨k1, v1⟩ := kv
    simp only [List.map_cons, List.nodup_cons] at hnd
    by_cases h1 : k1 = k
    · subst h1
      have hms : mapSet ((k1, v1) :: rest) k1 v = (k1, v) :: rest := by
        unfold mapSet
        rw [if_pos rfl]
      rw [hms]
      simp only [List.map_cons, List.nodup_cons]
      exact hnd
    · simp only [mapSet, if_neg h1, List.map_cons, List.nodup_cons]
      refine ⟨?_, ih hnd.2⟩
      intro hmem
      rcases keys_mapSet_subset rest k v k1 hmem with h | h
      · exact h1 h
      · exact hnd.1 h

theorem keys_mapDelete_subset (m : List (ℕ × ℕ)) (k : ℕ) :
    ∀ x, x ∈ (mapDelete m k).map Prod.fst → x ∈ m.map Prod.fst := by
  induction m with
  | nil => intro x hx; simp [mapDelete] at hx
  | cons kv rest ih =>
    obtain ⟨k1, v1⟩ := kv
    intro x hx
    by_cases h1 : k1 = k
    · subst h1
      have hmd : mapDelete ((k1, v1) :: rest) k1 = rest := by
        unfold mapDelete
        rw [if_pos rfl]
      rw [hmd] at hx
      simp only [List.map_cons, List.mem_cons]
      exact Or.inr hx
    · simp only [mapDelete, if_neg h1, List.map_cons, List.mem_cons] at hx
      simp only [List.map_cons, List.mem_cons]
      rcases hx with h | h
      · exact Or.inl h
      · exact Or.inr (ih x h)

theorem keys_nodup_mapDelete (m : List (ℕ × ℕ)) (k : ℕ)
    (hnd : (m.map Prod.fst).Nodup) : ((mapDelete m k).map Prod.fst).Nodup := by
  induction m with
  | nil => simp [mapDelete]
  | cons kv rest ih =>
    obtain ⟨k1, v1⟩ := kv
    simp only [List.map_cons, List.nodup_cons] at hnd
    by_cases h1 : k1 = k
    · subst h1
      have hmd : mapDelete ((k1, v1) :: rest) k1 = rest := by
        unfold mapDelete
        rw [if_pos rfl]
      rw [hmd]
      exact hnd.2
    · simp only [mapDelete, if_neg h1, List.map_cons, List.nodup_cons]
      exact ⟨fun hmem => hnd.1 (keys_mapDelete_subset rest k k1 hmem), ih hnd.2⟩

/-- C3: on a full-table fault the LRU engine scans all capacity slots in
ascending order and evicts the occupant with minimal last-referenced index
(strict comparison, so the first minimum wins ties: earlier slots all score
strictly above the victim); it removes the evicted identifier's bookkeeping
entry and records the inserted identifier at the current position; the
bookkeeping is updated on every hit and on every insertion including
first-fill. -/
theorem lru_victim_rule (c i p : ℕ) (frames : List (Option ℕ))
    (lastUsed : List (ℕ × ℕ)) (hc : 1 ≤ c) (hlen : frames.length = c) :
    (some p ∈ frames →
      (lruStep ⊥ c i p frames lastUsed).1.hit = true ∧
      (lruStep ⊥ c i p frames lastUsed).2.1 = frames ∧
      (lruStep ⊥ c i p frames lastUsed).2.2 = mapSet lastUsed p i ∧
      (mapSet lastUsed p i).lookup p = some i) ∧
    (some p ∉ frames → none ∈ frames →
      ∃ e, frames.findIdx? (· = (none : Option ℕ)) = some e ∧ e < c ∧
        (lruStep ⊥ c i p frames lastUsed).1.fault = true ∧
        (lruStep ⊥ c i p frames lastUsed).2.1 = frames.set e (some p) ∧
        (lruStep ⊥ c i p frames lastUsed).2.2 = mapSet lastUsed p i ∧
        (mapSet lastUsed p i).lookup p = some i) ∧
    (some p ∉ frames → none ∉ frames →
      ∃ fi e, fi < c ∧ frames.getD fi none = some e ∧
        (lruStep ⊥ c i p frames lastUsed).1.fault = true ∧
        (lruStep ⊥ c i p frames lastUsed).1.replacedIndex = some fi ∧
        (lruStep ⊥ c i p frames lastUsed).1.replaced = some e ∧
        (lruStep ⊥ c i p frames lastUsed).2.1 = frames.set fi (some p) ∧
        (lruStep ⊥ c i p frames lastUsed).2.2 =
          mapSet (mapDelete lastUsed e) p i ∧
        (mapSet (mapDelete lastUsed e) p i).lookup p = some i ∧
        (∀ fj pg t, fj < c → frames.getD fj none = some pg →
          lastUsed.lookup pg = some t →
          lruScore frames lastUsed ⊥ fj = ((t : ℕ) : WithBot ℕ)) ∧
        (∀ fj, fj < c →
          lruScore frames lastUsed ⊥ fi ≤ lruScore frames lastUsed ⊥ fj) ∧
        (∀ fj, fj < fi →
          lruScore frames lastUsed ⊥ fi < lruScore frames lastUsed ⊥ fj)) := by
  refine ⟨?_, ?_, ?_⟩
  · intro hmem
    cases hHit : frames.findIdx? (· = some p) with
    | none => exact absurd hmem (findIdx?_eq_none_not_mem.mp hHit)
    | some k =>
      refine ⟨?_, ?_, ?_, lookup_mapSet_self lastUsed p i⟩ <;>
        simp [lruStep, makeStep, hHit]
  · intro hp hnone
    have hHit : frames.findIdx? (· = some p) = none :=
      findIdx?_eq_none_not_mem.mpr hp
    cases hEmpty : frames.findIdx? (· = (none : Option ℕ)) with
    | none => exact absurd hnone (findIdx?_eq_none_not_mem.mp hEmpty)
    | some e =>
      have he := findIdx?_some_getD hEmpty
      refine ⟨e, rfl, by omega, ?_, ?_, ?_, lookup_mapSet_self lastUsed p i⟩ <;>
        simp [lruStep, makeStep, hHit, hEmpty]
  · intro hp hfull
    have hHit : frames.findIdx? (· = some p) = none :=
      findIdx?_eq_none_not_mem.mpr hp
    have hEmpty : frames.findIdx? (· = (none : Option ℕ)) = none :=
      findIdx?_eq_none_not_mem.mpr hfull
    obtain ⟨fi, hfic, hr1, hr2, hr3, hmin, hfirst⟩ :=
      lruScan_victim frames lastUsed ⊥ c hc
    have hfilen : fi < frames.length := by omega
    cases hv : frames.getD fi none with
    | none => exact absurd (hv ▸ getD_mem hfilen) hfull
    | some e =>
      refine ⟨fi, e, hfic, hv, ?_, ?_, ?_, ?_, ?_,
        lookup_mapSet_self (mapDelete lastUsed e) p i, ?_, hmin, hfirst⟩
      · simp [lruStep, makeStep, hHit, hEmpty]
      · simp only [lruStep, makeStep, hHit, hEmpty]
        rw [hr1]
        simp
      · simp only [lruStep, makeStep, hHit, hEmpty]
        rw [hr2]
        exact hv
      · simp only [lruStep, makeStep, hHit, hEmpty]
        rw [hr1]
        simp
      · simp only [lruStep, makeStep, hHit, hEmpty]
        rw [hr2, hv]
      · intro fj pg t hfj hgetD hlook
        simp only [lruScore, hgetD, hlook]

/-- Witness for the LRU victim rule: capacity 2, position 3, reference 3,
frames `[1, 2]` with page 1 last used at step 2 and page 2 at step 1. -/
theorem lru_victim_rule_witness :
    (some 3 ∈ ([some 1, some 2] : List (Option ℕ)) →
      (lruStep ⊥ 2 3 3 [some 1, some 2] [(1, 2), (2, 1)]).1.hit = true ∧
      (lruStep ⊥ 2 3 3 [some 1, some 2] [(1, 2), (2, 1)]).2.1 = [some 1, some 2] ∧
      (lruStep ⊥ 2 3 3 [some 1, some 2] [(1, 2), (2, 1)]).2.2 =
        mapSet [(1, 2), (2, 1)] 3 3 ∧
      (mapSet [(1, 2), (2, 1)] 3 3).lookup 3 = some 3) ∧
    (some 3 ∉ ([some 1, some 2] : List (Option ℕ)) →
      none ∈ ([some 1, some 2] : List (Option ℕ)) →
      ∃ e, ([some 1, some 2] : List (Option ℕ)).findIdx? (· = (none : Option ℕ)) =
            some e ∧ e < 2 ∧
        (lruStep ⊥ 2 3 3 [some 1, some 2] [(1, 2), (2, 1)]).1.fault = true ∧
        (lruStep ⊥ 2 3 3 [some 1, some 2] [(1, 2), (2, 1)]).2.1 =
          ([some 1, some 2] : List (Option ℕ)).set e (some 3) ∧
        (lruStep ⊥ 2 3 3 [some 1, some 2] [(1, 2), (2, 1)]).2.2 =
          mapSet [(1, 2), (2, 1)] 3 3 ∧
        (mapSet [(1, 2), (2, 1)] 3 3).lookup 3 = some 3) ∧
    (some 3 ∉ ([some 1, some 2] : List (Option ℕ)) →
      none ∉ ([some 1, some 2] : List (Option ℕ)) →
      ∃ fi e, fi < 2 ∧ ([some 1, some 2] : List (Option ℕ)).getD fi none = some e ∧
        (lruStep ⊥ 2 3 3 [some 1, some 2] [(1, 2), (2, 1)]).1.fault = true ∧
        (lruStep ⊥ 2 3 3 [some 1, some 2] [(1, 2), (2, 1)]).1.replacedIndex =
          some fi ∧
        (lruStep ⊥ 2 3 3 [some 1, some 2] [(1, 2), (2, 1)]).1.replaced = some e ∧
        (lruStep ⊥ 2 3 3 [some 1, some 2] [(1, 2), (2, 1)]).2.1 =
          ([some 1, some 2] : List (Option ℕ)).set fi (some 3) ∧
        (lruStep ⊥ 2 3 3 [some 1, some 2] [(1, 2), (2, 1)]).2.2 =
          mapSet (mapDelete [(1, 2), (2, 1)] e) 3 3 ∧
        (mapSet (mapDelete [(1, 2), (2, 1)] e) 3 3).lookup 3 = some 3 ∧
        (∀ fj pg t, fj < 2 →
          ([some 1, some 2] : List (Option ℕ)).getD fj none = some pg →
          ([(1, 2), (2, 1)] : List (ℕ × ℕ)).lookup pg = some t →
          lruScore [some 1, some 2] [(1, 2), (2, 1)] ⊥ fj = ((t : ℕ) : WithBot ℕ)) ∧
        (∀ fj, fj < 2 →
          lruScore [some 1, some 2] [(1, 2), (2, 1)] ⊥ fi ≤
            lruScore [some 1, some 2] [(1, 2), (2, 1)] ⊥ fj) ∧
        (∀ fj, fj < fi →
          lruScore [some 1, some 2] [(1, 2), (2, 1)] ⊥ fi <
            lruScore [some 1, some 2] [(1, 2), (2, 1)] ⊥ fj)) :=
  lru_victim_rule 2 3 3 [some 1, some 2] [(1, 2), (2, 1)] (by decide) (by decide)

-- ---------- Fallback irrelevance and the LRU domain invariant ----------

theorem lruScan_fallback_indep (frames : List (Option ℕ)) (lastUsed : List (ℕ × ℕ))
    (b b' : WithBot ℕ) :
    ∀ (fis : List ℕ) (acc : ℤ × Option ℕ × WithTop (WithBot ℕ)),
      (∀ fi ∈ fis, ∃ pg v, frames.getD fi none = some pg ∧
          lastUsed.lookup pg = some v) →
      lruScan frames lastUsed b fis acc = lruScan frames lastUsed b' fis acc := by
  intro fis
  induction fis with
  | nil => intro acc _; rfl
  | cons fi fis ih =>
    intro acc h
    obtain ⟨pg, v, hpg, hv⟩ := h fi (List.mem_cons_self fi fis)
    obtain ⟨vi, vp, m⟩ := acc
    rw [lruScan_cons, lruScan_cons]
    have hscore : lruScore frames lastUsed b fi = lruScore frames lastUsed b' fi := by
      simp only [lruScore, hpg, hv]
    have htail : ∀ fj ∈ fis, ∃ pg v, frames.getD fj none = some pg ∧
        lastUsed.lookup pg = some v := fun fj hf => h fj (List.mem_cons_of_mem _ hf)
    rw [hscore]
    by_cases hlt :
        ((lruScore frames lastUsed b' fi : WithBot ℕ) : WithTop (WithBot ℕ)) < m
    · rw [if_pos hlt, if_pos hlt, ih _ htail]
    · rw [if_neg hlt, if_neg hlt, ih _ htail]

theorem lruStep_fallback_indep (b b' : WithBot ℕ) (c i p : ℕ)
    (frames : List (Option ℕ)) (lastUsed : List (ℕ × ℕ))
    (hlen : frames.length = c)
    (hdom : ∀ q, some q ∈ frames → (List.lookup q lastUsed).isSome) :
    lruStep b c i p frames lastUsed = lruStep b' c i p frames lastUsed := by
  unfold lruStep
  cases hHit : frames.findIdx? (· = some p) with
  | some k => rfl
  | none =>
    cases hEmpty : frames.findIdx? (· = (none : Option ℕ)) with
    | some e => rfl
    | none =>
      have hfull : none ∉ frames := findIdx?_eq_none_not_mem.mp hEmpty
      have hscan : lruScan frames lastUsed b (List.range c) ((-1 : ℤ), none, ⊤) =
          lruScan frames lastUsed b' (List.range c) ((-1 : ℤ), none, ⊤) := by
        apply lruScan_fallback_indep
        intro fi hfi
        have hfilen : fi < frames.length := by
          have := List.mem_range.mp hfi
          omega
        cases hv : frames.getD fi none with
        | none => exact absurd (hv ▸ getD_mem hfilen) hfull
        | some pg =>
          have hmem : some pg ∈ frames := hv ▸ getD_mem hfilen
          have hsome := hdom pg hmem
          cases hlv : lastUsed.lookup pg with
          | none =>
            rw [hlv] at hsome
            exact absurd hsome (by simp)
          | some v => exact ⟨pg, v, rfl, hlv⟩
      rw [hscan]

theorem lruStep_domInv (b : WithBot ℕ) (c i p : ℕ)
    (frames : List (Option ℕ)) (lastUsed : List (ℕ × ℕ))
    (hc : 1 ≤ c) (hlen : frames.length = c) (hnd : (frames.filterMap id).Nodup)
    (hdom : ∀ q, some q ∈ frames ↔ (List.lookup q lastUsed).isSome)
    (hknd : (lastUsed.map Prod.fst).Nodup) :
    (lruStep b c i p frames lastUsed).2.1.length = c ∧
    ((lruStep b c i p frames lastUsed).2.1.filterMap id).Nodup ∧
    (∀ q, some q ∈ (lruStep b c i p frames lastUsed).2.1 ↔
      (List.lookup q (lruStep b c i p frames lastUsed).2.2).isSome) ∧
    ((lruStep b c i p frames lastUsed).2.2.map Prod.fst).Nodup := by
  cases hHit : frames.findIdx? (· = some p) with
  | some k =>
    have hk := findIdx?_some_getD hHit
    have hmem : some p ∈ frames := by
      rw [← hk.2.1]; exact getD_mem hk.1
    simp only [lruStep, hHit]
    refine ⟨hlen, hnd, ?_, keys_nodup_mapSet lastUsed p i hknd⟩
    intro q
    by_cases hq : q = p
    · subst hq
      simp [hmem, lookup_mapSet_self]
    · rw [lookup_mapSet_ne lastUsed p i q hq]
      exact hdom q
  | none =>
    have hnotmem : some p ∉ frames := findIdx?_eq_none_not_mem.mp hHit
    have hpp : p ∉ pagesOf frames := fun h => hnotmem (mem_pagesOf.mp h)
    cases hEmpty : frames.findIdx? (· = (none : Option ℕ)) with
    | some ei =>
      have he := findIdx?_some_getD hEmpty
      simp only [lruStep, hHit, hEmpty]
      refine ⟨by rw [List.length_set]; exact hlen,
        nodup_set_of_none he.1 he.2.1 hnd hpp, ?_,
        keys_nodup_mapSet lastUsed p i hknd⟩
      intro q
      have hpages := pagesOf_set_of_none (p := p) he.1 he.2.1
      have hmemq : some q ∈ frames.set ei (some p) ↔ q = p ∨ some q ∈ frames := by
        rw [← mem_pagesOf, hpages, Finset.mem_insert, mem_pagesOf]
      rw [hmemq]
      by_cases hq : q = p
      · subst hq
        simp [lookup_mapSet_self]
      · rw [lookup_mapSet_ne lastUsed p i q hq]
        constructor
        · intro h
          rcases h with h | h
          · exact absurd h hq
          · exact (hdom q).mp h
        · intro h
          exact Or.inr ((hdom q).mpr h)
    | none =>
      have hfull : none ∉ frames := findIdx?_eq_none_not_mem.mp hEmpty
      obtain ⟨fi, hfic, hr1, hr2, hr3, _, _⟩ :=
        lruScan_victim frames lastUsed b c hc
      have hfilen : fi < frames.length := by omega
      cases hv : frames.getD fi none with
      | none => exact absurd (hv ▸ getD_mem hfilen) hfull
      | some e =>
        have hmeme : some e ∈ frames := hv ▸ getD_mem hfilen
        have hep : e ≠ p := fun h => hnotmem (h ▸ hmeme)
        simp only [lruStep, hHit, hEmpty]
        rw [hr1, hr2, hv]
        simp only [Int.toNat_natCast]
        have hknd' : ((mapDelete lastUsed e).map Prod.fst).Nodup :=
          keys_nodup_mapDelete lastUsed e hknd
        refine ⟨by rw [List.length_set]; exact hlen,
          nodup_set_of_some hfilen hv hnd hpp, ?_,
          keys_nodup_mapSet (mapDelete lastUsed e) p i hknd'⟩
        intro q
        have hpages := pagesOf_set_of_some (p := p) hfilen hv hnd
        have hmemq : some q ∈ frames.set fi (some p) ↔
            q = p ∨ (q ≠ e ∧ some q ∈ frames) := by
          rw [← mem_pagesOf, hpages, Finset.mem_insert, Finset.mem_erase,
            mem_pagesOf]
        rw [hmemq]
        by_cases hq : q = p
        · subst hq
          simp [lookup_mapSet_self]
        · rw [lookup_mapSet_ne (mapDelete lastUsed e) p i q hq]
          by_cases hqe : q = e
          · subst hqe
            rw [lookup_mapDelete_self lastUsed q hknd]
            simp [hq]
          · rw [lookup_mapDelete_ne lastUsed e q hqe]
            constructor
            · intro h
              rcases h with h | h
              · exact absurd h hq
              · exact (hdom q).mp h.2
            · intro h
              exact Or.inr ⟨hqe, (hdom q).mpr h⟩

theorem lruGo_fallback_run (b b' : WithBot ℕ) (c : ℕ) (hc : 1 ≤ c) :
    ∀ (refs : List ℕ) (frames : List (Option ℕ)) (lastUsed : List (ℕ × ℕ))
      (hits faults i : ℕ),
      frames.length = c → (frames.filterMap id).Nodup →
      (∀ q, some q ∈ frames ↔ (List.lookup q lastUsed).isSome) →
      (lastUsed.map Prod.fst).Nodup →
      lruGo b c frames lastUsed hits faults i refs =
        lruGo b' c frames lastUsed hits faults i refs := by
  intro refs
  induction refs with
  | nil => intro frames lastUsed hits faults i _ _ _ _; rfl
  | cons p rest ih =>
    intro frames lastUsed hits faults i hlen hnd hdom hknd
    have hstep := lruStep_fallback_indep b b' c i p frames lastUsed hlen
      (fun q hq => (hdom q).mp hq)
    have hinv := lruStep_domInv b c i p frames lastUsed hc hlen hnd hdom hknd
    rw [hstep] at hinv
    simp only [lruGo]
    rw [hstep, ih (lruStep b' c i p frames lastUsed).2.1
      (lruStep b' c i p frames lastUsed).2.2 _ _ (i + 1)
      hinv.1 hinv.2.1 hinv.2.2.1 hinv.2.2.2]

/-- C10: in the LRU engine the bookkeeping map's domain always equals the
set of resident identifiers (each step preserves this), so the defensive
negative-infinity fallback consulted for a missing entry during the victim
scan is never taken: the entire simulation result is independent of the
fallback value. -/
theorem lru_fallback_never_used (b : WithBot ℕ) (c : ℕ) (refs : List ℕ)
    (hc : 1 ≤ c) :
    (∀ i p (frames : List (Option ℕ)) (lastUsed : List (ℕ × ℕ)),
      frames.length = c → (frames.filterMap id).Nodup →
      (∀ q, some q ∈ frames ↔ (List.lookup q lastUsed).isSome) →
      (lastUsed.map Prod.fst).Nodup →
      (∀ q, some q ∈ (lruStep b c i p frames lastUsed).2.1 ↔
        (List.lookup q (lruStep b c i p frames lastUsed).2.2).isSome) ∧
      ((lruStep b c i p frames lastUsed).2.2.map Prod.fst).Nodup) ∧
    simulateLRUf b c refs = simulateLRU c refs := by
  constructor
  · intro i p frames lastUsed hlen hnd hdom hknd
    have h := lruStep_domInv b c i p frames lastUsed hc hlen hnd hdom hknd
    exact ⟨h.2.2.1, h.2.2.2⟩
  · unfold simulateLRU simulateLRUf
    rw [lruGo_fallback_run b ⊥ c hc refs (List.replicate c none) [] 0 0 0
      (List.length_replicate c none) (nodup_replicate_none c) ?_ ?_]
    · intro q
      constructor
      · intro h
        exact absurd (List.eq_of_mem_replicate h) (by simp)
      · intro h
        simp [List.lookup] at h
    · simp

/-- Witness for the LRU fallback irrelevance: fallback `7`, capacity 2,
references `[1, 2, 3, 1]`. -/
theorem lru_fallback_never_used_witness :
    (∀ i p (frames : List (Option ℕ)) (lastUsed : List (ℕ × ℕ)),
      frames.length = 2 → (frames.filterMap id).Nodup →
      (∀ q, some q ∈ frames ↔ (List.lookup q lastUsed).isSome) →
      (lastUsed.map Prod.fst).Nodup →
      (∀ q, some q ∈
          (lruStep ((7 : ℕ) : WithBot ℕ) 2 i p frames lastUsed).2.1 ↔
        (List.lookup q
          (lruStep ((7 : ℕ) : WithBot ℕ) 2 i p frames lastUsed).2.2).isSome) ∧
      ((lruStep ((7 : ℕ) : WithBot ℕ) 2 i p frames lastUsed).2.2.map
        Prod.fst).Nodup) ∧
    simulateLRUf ((7 : ℕ) : WithBot ℕ) 2 [1, 2, 3, 1] =
      simulateLRU 2 [1, 2, 3, 1] :=
  lru_fallback_never_used ((7 : ℕ) : WithBot ℕ) 2 [1, 2, 3, 1] (by decide)

/-- C4: every full-table-fault CLOCK scan reaches a zero reference bit and
evicts within at most 2 × capacity scan steps, so the scan loop terminates
without hitting the safety-break error branch, and the whole engine always
returns a result rather than the safety-break error. -/
theorem clock_termination (c : ℕ) (hc : 1 ≤ c) :
    (∀ (p : ℕ) (frames : List (Option ℕ)) (refBits : List ℕ) (hand : ℕ),
      refBits.length = c → hand < c →
      ∃ r, clockScan c p frames refBits hand 0 (c * 5 + 1) = .ok r ∧
        r.scans ≤ 2 * c) ∧
    (∀ refs : List ℕ, ∃ res, simulateCLOCK c refs = .ok res) := by
  constructor
  · intro p frames refBits hand hlen hhand
    exact clockScan_total c p hc frames refBits hand hhand hlen
  · intro refs
    obtain ⟨res, hres⟩ := clockGo_total c hc refs (List.replicate c none)
      (List.replicate c 0) 0 0 0 0 (List.length_replicate c 0) (by omega)
    refine ⟨{ steps := res.1, summary := res.2 }, ?_⟩
    unfold simulateCLOCK
    rw [hres]

/-- Witness for CLOCK termination at capacity 2. -/
theorem clock_termination_witness :
    (∀ (p : ℕ) (frames : List (Option ℕ)) (refBits : List ℕ) (hand : ℕ),
      refBits.length = 2 → hand < 2 →
      ∃ r, clockScan 2 p frames refBits hand 0 (2 * 5 + 1) = .ok r ∧
        r.scans ≤ 2 * 2) ∧
    (∀ refs : List ℕ, ∃ res, simulateCLOCK 2 refs = .ok res) :=
  clock_termination 2 (by decide)

-- ---------- CLOCK scan bit-clearing characterization ----------

theorem clearBits_congr (c : ℕ) :
    ∀ (d : ℕ) (rb : List ℕ) (h1 h2 : ℕ), h1 % c = h2 % c →
      clearBits c rb h1 d = clearBits c rb h2 d := by
  intro d
  induction d with
  | zero => intro rb h1 h2 _; rfl
  | succ d ih =>
    intro rb h1 h2 h
    show clearBits c (rb.set (h1 % c) 0) (h1 + 1) d =
      clearBits c (rb.set (h2 % c) 0) (h2 + 1) d
    rw [h]
    apply ih
    rw [Nat.add_mod h1 1 c, Nat.add_mod h2 1 c, h]

/-- A successful CLOCK scan is exactly: walk from the hand, clearing each
bit-1 slot, stop at the first slot currently holding bit 0, evict there,
set its bit to 1 and advance the hand past it. -/
theorem clockScan_clears (c p : ℕ) (hc : 1 ≤ c) :
    ∀ (fuel scans : ℕ) (frames : List (Option ℕ)) (refBits : List ℕ) (hand : ℕ)
      (r : ClockScanResult),
      hand < c → refBits.length = c →
      clockScan c p frames refBits hand scans fuel = .ok r →
      ∃ d,
        (∀ j, j < d → (clearBits c refBits hand j).getD ((hand + j) % c) 1 ≠ 0) ∧
        (clearBits c refBits hand d).getD ((hand + d) % c) 1 = 0 ∧
        r.replacedIndex = (hand + d) % c ∧
        r.refBits = (clearBits c refBits hand d).set ((hand + d) % c) 1 ∧
        r.frames = frames.set ((hand + d) % c) (some p) ∧
        r.replaced = frames.getD ((hand + d) % c) none ∧
        r.hand = ((hand + d) % c + 1) % c ∧
        r.scans = scans + d + 1 := by
  intro fuel
  induction fuel with
  | zero =>
    intro scans frames refBits hand r hhand hlen hok
    exact Except.noConfusion hok
  | succ fuel ih =>
    intro scans frames refBits hand r hhand hlen hok
    rw [clockScan_unfold] at hok
    by_cases hbit : refBits.getD hand 1 = 0
    · rw [if_pos hbit] at hok
      injection hok with h
      subst h
      refine ⟨0, fun j hj => absurd hj (by omega), ?_, ?_, ?_, ?_, ?_, ?_, ?_⟩
      · simpa [clearBits, Nat.mod_eq_of_lt hhand] using hbit
      · simp [Nat.mod_eq_of_lt hhand]
      · simp [clearBits, Nat.mod_eq_of_lt hhand]
      · simp [Nat.mod_eq_of_lt hhand]
      · simp [Nat.mod_eq_of_lt hhand]
      · simp [Nat.mod_eq_of_lt hhand]
      · simp
    · rw [if_neg hbit] at hok
      by_cases hguard : c * 5 < scans + 1
      · rw [if_pos hguard] at hok
        exact Except.noConfusion hok
      · rw [if_neg hguard] at hok
        obtain ⟨d', hne, hz, hri, hrb, hrf, hrr, hrh, hrs⟩ := ih (scans + 1) frames
          (refBits.set hand 0) ((hand + 1) % c) r
          (Nat.mod_lt _ (by omega)) (by rw [List.length_set]; exact hlen) hok
        have hbridge : ∀ j, clearBits c (refBits.set hand 0) ((hand + 1) % c) j =
            clearBits c refBits hand (j + 1) := by
          intro j
          calc clearBits c (refBits.set hand 0) ((hand + 1) % c) j
              = clearBits c (refBits.set hand 0) (hand + 1) j :=
                clearBits_congr c j _ _ _
                  (Nat.mod_mod_of_dvd (hand + 1) (dvd_refl c))
            _ = clearBits c refBits hand (j + 1) := by
                rw [show clearBits c refBits hand (j + 1) =
                  clearBits c (refBits.set (hand % c) 0) (hand + 1) j from rfl,
                  Nat.mod_eq_of_lt hhand]
        have hpos : ∀ j, ((hand + 1) % c + j) % c = (hand + (j + 1)) % c := by
          intro j
          rw [Nat.mod_add_mod]
          congr 1
          omega
        refine ⟨d' + 1, ?_, ?_, ?_, ?_, ?_, ?_, ?_, ?_⟩
        · intro j hj
          cases j with
          | zero =>
            simpa [clearBits, Nat.mod_eq_of_lt hhand] using hbit
          | succ j' =>
            rw [← hbridge j', ← hpos j']
            exact hne j' (by omega)
        · rw [← hbridge d', ← hpos d']
          exact hz
        · rw [hri, hpos d']
        · rw [hrb, hbridge d', hpos d']
        · rw [hrf, hpos d']
        · rw [hrr, hpos d']
        · rw [hrh, hpos d']
        · omega

/-- C5: a CLOCK hit sets the hit slot's reference bit to 1 without moving
the hand and without eviction; a first-fill fault inserts into the
lowest-indexed empty slot with bit 1 and leaves the hand untouched; on a
full-table fault the scan from the hand clears each bit-1 slot it passes,
evicts the first slot found with bit 0, inserts the new entry there with
bit 1, and advances the hand one past the victim modulo capacity. -/
theorem clock_step_behavior (c i p : ℕ) (frames : List (Option ℕ))
    (refBits : List ℕ) (hand : ℕ)
    (hc : 1 ≤ c) (hlen : frames.length = c) (hblen : refBits.length = c)
    (hhand : hand < c) :
    (some p ∈ frames →
      ∃ k st, frames.findIdx? (· = some p) = some k ∧ k < c ∧
        frames.getD k none = some p ∧
        (∀ j, j < k → frames.getD j none ≠ some p) ∧
        clockStep c i p frames refBits hand = .ok st ∧
        st.1.hit = true ∧ st.1.replaced = none ∧ st.1.replacedIndex = none ∧
        st.2.1 = frames ∧ st.2.2.1 = refBits.set k 1 ∧ st.2.2.2 = hand) ∧
    (some p ∉ frames → none ∈ frames →
      ∃ e st, frames.findIdx? (· = (none : Option ℕ)) = some e ∧ e < c ∧
        frames.getD e none = none ∧
        (∀ j, j < e → frames.getD j none ≠ none) ∧
        clockStep c i p frames refBits hand = .ok st ∧
        st.1.fault = true ∧ st.1.replaced = none ∧ st.1.replacedIndex = none ∧
        st.2.1 = frames.set e (some p) ∧ st.2.2.1 = refBits.set e 1 ∧
        st.2.2.2 = hand) ∧
    (some p ∉ frames → none ∉ frames →
      ∃ d st,
        (∀ j, j < d →
          (clearBits c refBits hand j).getD ((hand + j) % c) 1 ≠ 0) ∧
        (clearBits c refBits hand d).getD ((hand + d) % c) 1 = 0 ∧
        clockStep c i p frames refBits hand = .ok st ∧
        st.1.fault = true ∧
        st.1.replacedIndex = some ((hand + d) % c) ∧
        st.1.replaced = frames.getD ((hand + d) % c) none ∧
        st.2.1 = frames.set ((hand + d) % c) (some p) ∧
        st.2.2.1 = (clearBits c refBits hand d).set ((hand + d) % c) 1 ∧
        st.2.2.2 = ((hand + d) % c + 1) % c) := by
  refine ⟨?_, ?_, ?_⟩
  · intro hmem
    cases hHit : frames.findIdx? (· = some p) with
    | none => exact absurd hmem (findIdx?_eq_none_not_mem.mp hHit)
    | some k =>
      have hk := findIdx?_some_getD hHit
      cases hstep : clockStep c i p frames refBits hand with
      | error e =>
        exfalso
        simp [clockStep, hHit] at hstep
      | ok st =>
        simp only [clockStep, hHit] at hstep
        injection hstep with h
        subst h
        exact ⟨k, _, rfl, by omega, hk.2.1, hk.2.2, rfl, rfl, rfl, rfl, rfl,
          rfl, rfl⟩
  · intro hp hnone
    have hHit : frames.findIdx? (· = some p) = none :=
      findIdx?_eq_none_not_mem.mpr hp
    cases hEmpty : frames.findIdx? (· = (none : Option ℕ)) with
    | none => exact absurd hnone (findIdx?_eq_none_not_mem.mp hEmpty)
    | some e =>
      have he := findIdx?_some_getD hEmpty
      cases hstep : clockStep c i p frames refBits hand with
      | error e' =>
        exfalso
        simp [clockStep, hHit, hEmpty] at hstep
      | ok st =>
        simp only [clockStep, hHit, hEmpty] at hstep
        injection hstep with h
        subst h
        exact ⟨e, _, rfl, by omega, he.2.1, he.2.2, rfl, rfl, rfl, rfl, rfl,
          rfl, rfl⟩
  · intro hp hfull
    have hHit : frames.findIdx? (· = some p) = none :=
      findIdx?_eq_none_not_mem.mpr hp
    have hEmpty : frames.findIdx? (· = (none : Option ℕ)) = none :=
      findIdx?_eq_none_not_mem.mpr hfull
    obtain ⟨r, hscan, _⟩ := clockScan_total c p hc frames refBits hand hhand hblen
    obtain ⟨d, hne, hz, hri, hrb, hrf, hrr, hrh, _⟩ :=
      clockScan_clears c p hc (c * 5 + 1) 0 frames refBits hand r hhand hblen hscan
    cases hstep : clockStep c i p frames refBits hand with
    | error e' =>
      exfalso
      simp [clockStep, hHit, hEmpty, hscan] at hstep
    | ok st =>
      simp only [clockStep, hHit, hEmpty, hscan] at hstep
      injection hstep with h
      subst h
      refine ⟨d, _, hne, hz, rfl, rfl, ?_, ?_, ?_, ?_, ?_⟩
      · show some r.replacedIndex = some ((hand + d) % c)
        rw [hri]
      · show r.replaced = frames.getD ((hand + d) % c) none
        rw [hrr]
      · show r.frames = frames.set ((hand + d) % c) (some p)
        rw [hrf]
      · show r.refBits = (clearBits c refBits hand d).set ((hand + d) % c) 1
        rw [hrb]
      · show r.hand = ((hand + d) % c + 1) % c
        rw [hrh]

/-- Witness for the CLOCK step behavior: capacity 2, position 2,
reference 3, frames `[1, 2]`, reference bits `[1, 0]`, hand 0. -/
theorem clock_step_behavior_witness :
    (some 3 ∈ ([some 1, some 2] : List (Option ℕ)) →
      ∃ k st, ([some 1, some 2] : List (Option ℕ)).findIdx? (· = some 3) = some k ∧
        k < 2 ∧
        ([some 1, some 2] : List (Option ℕ)).getD k none = some 3 ∧
        (∀ j, j < k → ([some 1, some 2] : List (Option ℕ)).getD j none ≠ some 3) ∧
        clockStep 2 2 3 [some 1, some 2] [1, 0] 0 = .ok st ∧
        st.1.hit = true ∧ st.1.replaced = none ∧ st.1.replacedIndex = none ∧
        st.2.1 = [some 1, some 2] ∧ st.2.2.1 = ([1, 0] : List ℕ).set k 1 ∧
        st.2.2.2 = 0) ∧
    (some 3 ∉ ([some 1, some 2] : List (Option ℕ)) →
      none ∈ ([some 1, some 2] : List (Option ℕ)) →
      ∃ e st, ([some 1, some 2] : List (Option ℕ)).findIdx?
          (· = (none : Option ℕ)) = some e ∧ e < 2 ∧
        ([some 1, some 2] : List (Option ℕ)).getD e none = none ∧
        (∀ j, j < e → ([some 1, some 2] : List (Option ℕ)).getD j none ≠ none) ∧
        clockStep 2 2 3 [some 1, some 2] [1, 0] 0 = .ok st ∧
        st.1.fault = true ∧ st.1.replaced = none ∧ st.1.replacedIndex = none ∧
        st.2.1 = ([some 1, some 2] : List (Option ℕ)).set e (some 3) ∧
        st.2.2.1 = ([1, 0] : List ℕ).set e 1 ∧
        st.2.2.2 = 0) ∧
    (some 3 ∉ ([some 1, some 2] : List (Option ℕ)) →
      none ∉ ([some 1, some 2] : List (Option ℕ)) →
      ∃ d st,
        (∀ j, j < d →
          (clearBits 2 [1, 0] 0 j).getD ((0 + j) % 2) 1 ≠ 0) ∧
        (clearBits 2 [1, 0] 0 d).getD ((0 + d) % 2) 1 = 0 ∧
        clockStep 2 2 3 [some 1, some 2] [1, 0] 0 = .ok st ∧
        st.1.fault = true ∧
        st.1.replacedIndex = some ((0 + d) % 2) ∧
        st.1.replaced = ([some 1, some 2] : List (Option ℕ)).getD ((0 + d) % 2) none ∧
        st.2.1 = ([some 1, some 2] : List (Option ℕ)).set ((0 + d) % 2) (some 3) ∧
        st.2.2.1 = (clearBits 2 [1, 0] 0 d).set ((0 + d) % 2) 1 ∧
        st.2.2.2 = ((0 + d) % 2 + 1) % 2) :=
  clock_step_behavior 2 2 3 [some 1, some 2] [1, 0] 0
    (by decide) (by decide) (by decide) (by decide)
